import Mathlib

/-!
Shallow embedding of `src/main.py` (jira-field-sync-cm4j).

The script reconciles the option list of a remote single-select custom
field against a desired list read from files/stdin.  The remote system
itself is external to the repository; its behaviour (state kept, effect
of each call, response shape) is modelled from the spec (sections 3, 4.4
and 6): options are records `{optionId, value, isDisabled}` that are
never deleted, `updateEnabled` receives the *inverted* boolean, and every
call returns the full option list of the context.

Remote interaction is modelled by a deterministic state machine plus a
status oracle `fl : Nat → Nat` giving the HTTP status of the i-th POST,
so that error propagation (`is_error` / `raise_for_status`) is visible.

Python string comparison (code-point lexicographic, used by `sorted`)
is embedded as `strLe`; Python's stable `sorted` as `List.insertionSort`;
`str.strip()` as `strip`.  All definitions are executable by the kernel.
-/

/-- Code-point lexicographic order on character lists, as Python compares
strings. -/
def lexLe : List Char → List Char → Bool
  | [], _ => true
  | _ :: _, [] => false
  | a :: as, b :: bs => if a = b then lexLe as bs else decide (a.toNat < b.toNat)

/-- Code-point lexicographic order on strings (Python `<=` on `str`). -/
def strLe (a b : String) : Prop := lexLe a.data b.data = true

instance : DecidableRel strLe :=
  fun a b => id (inferInstanceAs (Decidable (lexLe a.data b.data = true)))

/-- The whitespace characters removed by Python's `str.strip()`
(ASCII fragment). -/
def isSpaceChar (c : Char) : Bool :=
  c = ' ' || c = '\t' || c = '\n' || c = '\r' || c = '\x0b' || c = '\x0c'

/-- Python `str.strip()`: drop leading and trailing whitespace. -/
def strip (s : String) : String :=
  ⟨((s.data.dropWhile isSpaceChar).reverse.dropWhile isSpaceChar).reverse⟩

/-- Structural decimal parser (used by the spec-modelled remote to read
the 1-based position strings the script pushes). -/
def parseNatCore : List Char → Nat → Option Nat
  | [], acc => some acc
  | c :: cs, acc =>
    if c.toNat < 48 ∨ 57 < c.toNat then none
    else parseNatCore cs (acc * 10 + (c.toNat - 48))

/-- Value of a decimal numeral string, `none` for a malformed one. -/
def parseNat (s : String) : Option Nat :=
  if s.data.isEmpty then none else parseNatCore s.data 0

/-- A remote option record, per the spec's data model
(`{optionId, value, isDisabled}`). -/
structure ROption where
  optionId : Nat
  value : String
  isDisabled : Bool
deriving DecidableEq, Repr

/-- Modelled from the spec: the remote field context holds a finite
ordered list of option records (never deleted), plus a supply of fresh
identifiers for `addOption`. -/
structure RemoteState where
  opts : List ROption
  nextId : Nat
deriving DecidableEq, Repr

/-- One POST to the administrative endpoint, as issued by the script:
the `op` discriminator together with the op-specific body fields. -/
inductive RemoteCall where
  | listOptions
  | updateEnabled (optionId : Option Nat) (isDisabled : Bool)
  | addOption (value : String) (position : String)
  | movePositions (positions : List (Option Nat × String))
deriving DecidableEq, Repr

/-- Whether a call mutates remote state (`listOptions` is the only read). -/
def RemoteCall.mutating : RemoteCall → Bool
  | .listOptions => false
  | _ => true

/-- Python-dict insertion on an association list keyed by `Option Nat`
(an absent lookup key is `None`): update in place if the key is present,
else append. -/
def dictInsert (m : List (Option Nat × String)) (k : Option Nat) (v : String) :
    List (Option Nat × String) :=
  if m.any (fun p => decide (p.1 = k)) then
    m.map (fun p => if p.1 = k then (k, v) else p)
  else m ++ [(k, v)]

/-- Modelled from the spec: `updateEnabled` — "the enabled/disabled
boolean sent is the logical inverse of the desired state", so the remote
stores `isDisabled := !b` for the addressed option, where `b` is the
`isDisabled` boolean in the request body. -/
def applyUpdateEnabled (s : RemoteState) (oid : Option Nat) (b : Bool) : RemoteState :=
  ⟨s.opts.map (fun o => if some o.optionId = oid then { o with isDisabled := !b } else o),
   s.nextId⟩

/-- Numeric position a mapping assigns to an option (0 when unmapped or
non-numeric); used to model the remote's reordering. -/
def posOf (m : List (Option Nat × String)) (o : ROption) : Nat :=
  match m.find? (fun p => decide (p.1 = some o.optionId)) with
  | some p => (parseNat p.2).getD 0
  | none => 0

/-- Modelled from the spec: `movePositions` reorders the option list
according to the pushed identifier→position mapping; mapped options are
placed first in ascending position order, unmapped ones keep their
relative order after them.  Flags and identifiers are untouched. -/
def applyMove (s : RemoteState) (m : List (Option Nat × String)) : RemoteState :=
  let mapped := s.opts.filter (fun o => m.any (fun p => decide (p.1 = some o.optionId)))
  let unmapped := s.opts.filter (fun o => !(m.any (fun p => decide (p.1 = some o.optionId))))
  ⟨(mapped.insertionSort (fun a b => posOf m a ≤ posOf m b)) ++ unmapped, s.nextId⟩

/-- Modelled from the spec: effect of one successful call on remote
state.  `addOption` creates a fresh enabled record (its add-time position
is provisional, spec 4.2, and not part of the stored record). -/
def applyCall (s : RemoteState) : RemoteCall → RemoteState
  | .listOptions => s
  | .updateEnabled oid b => applyUpdateEnabled s oid b
  | .addOption v _ => ⟨s.opts ++ [⟨s.nextId, v, false⟩], s.nextId + 1⟩
  | .movePositions m => applyMove s m

/-- `is_error` from `main.py`: `raise_for_status` raises exactly on 4xx
and 5xx status codes. -/
def is_error (status_code : Nat) : Bool :=
  decide (400 ≤ status_code ∧ status_code < 600)

/-- Accumulated run state: remote state plus the trace of issued calls. -/
structure RunSt where
  s : RemoteState
  trace : List RemoteCall
deriving DecidableEq, Repr

/-- How a run terminates abnormally: `sys.exit(1)` on empty input, or a
re-raised transport error; both carry the calls issued so far. -/
inductive RunFail where
  | input (trace : List RemoteCall)
  | transport (trace : List RemoteCall)
deriving DecidableEq, Repr

/-- Issue one POST: the status oracle decides success; on success the
spec-modelled state transition runs and the response carries the full
option list (`data[0].context.values`). -/
def post (fl : Nat → Nat) (st : RunSt) (c : RemoteCall) :
    Except RunFail (RunSt × List ROption) :=
  let t := st.trace ++ [c]
  if is_error (fl st.trace.length) then .error (.transport t)
  else
    let s' := applyCall st.s c
    .ok (⟨s', t⟩, s'.opts)

/-- `get_options` from `main.py`: list the current options (a
`movePositions` POST with an empty position map — a read). -/
def get_options (fl : Nat → Nat) (st : RunSt) : Except RunFail (RunSt × List ROption) :=
  post fl st .listOptions

/-- The pure scan inside `get_option_id`: first option whose `value`
equals the argument, yielding its `optionId`; `none` when absent. -/
def find_option_id (option_list : List ROption) (value : String) : Option Nat :=
  (option_list.find? (fun o => decide (o.value = value))).map (·.optionId)

/-- `get_option_id` from `main.py`: re-fetch the whole option list, then
linear-scan it for the first record with the given `value`. -/
def get_option_id (fl : Nat → Nat) (st : RunSt) (value : String) :
    Except RunFail (RunSt × Option Nat) :=
  (get_options fl st).map (fun r => (r.1, find_option_id r.2 value))

/-- `disable_option` from `main.py`: POST `updateEnabled` with
`isDisabled = False` (the API's boolean is inverted); in dry-run mode do
nothing and return `None`. -/
def disable_option (dry : Bool) (fl : Nat → Nat) (st : RunSt) (oid : Option Nat) :
    Except RunFail (RunSt × Option (List ROption)) :=
  if dry then .ok (st, none)
  else (post fl st (.updateEnabled oid false)).map (fun r => (r.1, some r.2))

/-- `enable_option` from `main.py`: POST `updateEnabled` with
`isDisabled = True` (the API's boolean is inverted); in dry-run mode do
nothing and return `None`. -/
def enable_option (dry : Bool) (fl : Nat → Nat) (st : RunSt) (oid : Option Nat) :
    Except RunFail (RunSt × Option (List ROption)) :=
  if dry then .ok (st, none)
  else (post fl st (.updateEnabled oid true)).map (fun r => (r.1, some r.2))

/-- `add_option` from `main.py`: POST `addOption` with a value and an
add-time position string; in dry-run mode do nothing and return `None`. -/
def add_option (dry : Bool) (fl : Nat → Nat) (st : RunSt) (value position : String) :
    Except RunFail (RunSt × Option (List ROption)) :=
  if dry then .ok (st, none)
  else (post fl st (.addOption value position)).map (fun r => (r.1, some r.2))

/-- `move_option` from `main.py`: POST `movePositions` with the final
position mapping; in dry-run mode do nothing and return `None`. -/
def move_option (dry : Bool) (fl : Nat → Nat) (st : RunSt)
    (positions : List (Option Nat × String)) :
    Except RunFail (RunSt × Option (List ROption)) :=
  if dry then .ok (st, none)
  else (post fl st (.movePositions positions)).map (fun r => (r.1, some r.2))

/-- `read_input` from `main.py`: start from a copy of the static options,
append every non-blank stripped input line, and abort (`sys.exit(1)`,
modelled as `none`) when nothing was appended. -/
def read_input (static_opts input_lines : List String) : Option (List String) :=
  let option_list := static_opts ++ (input_lines.map strip).filter (fun l => decide (l ≠ ""))
  if option_list.length = static_opts.length then none else some option_list

/-- The diff planner of `main` (spec 4.1):
`missing = sorted(set(current) - set(desired))` and
`additions = sorted(set(desired) - set(current))`, with Python's set
difference embedded as deduplication plus filtering and Python's
`sorted` as a stable sort under `strLe`. -/
def plan (current desired : List String) : List String × List String :=
  ((current.dedup.filter (fun x => decide (x ∉ desired))).insertionSort strLe,
   (desired.dedup.filter (fun x => decide (x ∉ current))).insertionSort strLe)

/-- The disable loop of `main`: for each planned value, scan the
previously fetched snapshot for the first record with that value and
disable it by id (`break` after the first hit); values absent from the
snapshot are skipped. -/
def disable_phase (dry : Bool) (fl : Nat → Nat) (snapshot : List ROption)
    (missing : List String) (st : RunSt) : Except RunFail RunSt :=
  missing.foldlM (fun st opt =>
    match snapshot.find? (fun copt => decide (copt.value = opt)) with
    | some copt => (disable_option dry fl st (some copt.optionId)).map (·.1)
    | none => .ok st) st

/-- The add loop of `main`: add each planned value with its 0-based index
in the sorted additions list as provisional position. -/
def add_phase (dry : Bool) (fl : Nat → Nat) (additions : List String) (st : RunSt) :
    Except RunFail RunSt :=
  additions.enum.foldlM (fun st p =>
    (add_option dry fl st p.2 (toString p.1)).map (·.1)) st

/-- The enable loop of `main`: for every value of the full merged desired
list, re-resolve its id via `get_option_id` (a fresh list fetch each
time) and enable it. -/
def enable_phase (dry : Bool) (fl : Nat → Nat) (option_list : List String) (st : RunSt) :
    Except RunFail RunSt :=
  option_list.foldlM (fun st opt => do
    let r ← get_option_id fl st opt
    (enable_option dry fl r.1 r.2).map (·.1)) st

/-- The non-static part of the reorder section of `main`: drop static
values from the snapshot, sort the rest by `value`, and assign positions
`1..n` in sorted order (a Python dict keyed by id, built in that
order). -/
def nonstatic_positions (static_opts : List String) (snapshot : List ROption) :
    List (Option Nat × String) :=
  ((snapshot.filter (fun opt => decide (opt.value ∉ static_opts))).insertionSort
      (fun a b => strLe a.value b.value)).enum.foldl
    (fun m p => dictInsert m (some p.2.optionId) (toString (p.1 + 1))) []

/-- The pure content of the reorder section of `main`: from a snapshot,
drop static values, sort the rest by `value`, assign positions `1..n` in
sorted order, then append each static value's resolved id at positions
`n+1..n+N` in declared order. -/
def reorder_positions (static_opts : List String) (snapshot : List ROption) :
    List (Option Nat × String) :=
  let positions := nonstatic_positions static_opts snapshot
  let max_pos := positions.length
  static_opts.enum.foldl
    (fun m p => dictInsert m (find_option_id snapshot p.2) (toString (max_pos + p.1 + 1)))
    positions

/-- The static tail of the reorder section of `main`, with its real
interleaved `get_option_id` fetches: extend the position dict with each
static value's freshly resolved id. -/
def static_positions_phase (fl : Nat → Nat) (static_opts : List String) (max_pos : Nat)
    (stp : RunSt × List (Option Nat × String)) :
    Except RunFail (RunSt × List (Option Nat × String)) :=
  static_opts.enum.foldlM (fun stp p => do
    let r ← get_option_id fl stp.1 p.2
    pure (r.1, dictInsert stp.2 r.2 (toString (max_pos + p.1 + 1)))) stp

/-- `main` from `main.py`: fetch current options, read the desired list
(aborting on empty input), plan the diff, run the disable/add/enable
phases, re-fetch, build the final position mapping, and push it. -/
def main_run (dry : Bool) (static_opts input_lines : List String) (fl : Nat → Nat)
    (s0 : RemoteState) : Except RunFail RunSt := do
  let r0 ← get_options fl ⟨s0, []⟩
  let st := r0.1
  let current_options_json := r0.2
  let current_options := current_options_json.map (·.value)
  match read_input static_opts input_lines with
  | none => .error (.input st.trace)
  | some option_list => do
    let pl := plan current_options option_list
    let st ← disable_phase dry fl current_options_json pl.1 st
    let st ← add_phase dry fl pl.2 st
    let st ← enable_phase dry fl option_list st
    let r1 ← get_options fl st
    let st := r1.1
    let snapshot := r1.2
    let positions := nonstatic_positions static_opts snapshot
    let max_pos := positions.length
    let stp ← static_positions_phase fl static_opts max_pos (st, positions)
    let r2 ← move_option dry fl stp.1 stp.2
    .ok r2.1

/-- Projection used to state concrete run results. -/
def run_result (r : Except RunFail RunSt) : Option RunSt := r.toOption

/-- Projection used to state concrete abnormal terminations. -/
def run_failure : Except RunFail RunSt → Option RunFail
  | .error e => some e
  | .ok _ => none

/-- Status oracle for an always-healthy remote. -/
def okStatus : Nat → Nat := fun _ => 200

/-- Identifiers the disable loop selects: for each planned value, the id
of the first snapshot record with that value, if any. -/
def selected_ids (snapshot : List ROption) (missing : List String) : List Nat :=
  missing.filterMap (fun v => (snapshot.find? (fun o => decide (o.value = v))).map (·.optionId))

/-- Smallest power of ten strictly exceeding every number with as many
decimal digits as `n`; proof-side helper for the decimal roundtrip. -/
def mag (n : Nat) : Nat :=
  if n < 10 then 10 else 10 * mag (n / 10)
termination_by n
decreasing_by exact Nat.div_lt_self (by omega) (by omega)

/-- The non-static snapshot options in the order the reorder phase sorts
them (stable sort, ascending by `value`). -/
def sorted_nonstatic (static_opts : List String) (snap : List ROption) : List ROption :=
  (snap.filter (fun o => decide (o.value ∉ static_opts))).insertionSort
    (fun a b => strLe a.value b.value)

/-- No issued call up to the current trace failed. -/
def CleanSt (fl : Nat → Nat) (st : RunSt) : Prop :=
  ∀ i < st.trace.length, is_error (fl i) = false

/-- The trace of an aborted run: nonempty, its last call failed, every
earlier call succeeded — the first failure aborted the run there. -/
def ErrAtEnd (fl : Nat → Nat) (t : List RemoteCall) : Prop :=
  t ≠ [] ∧ is_error (fl (t.length - 1)) = true ∧ ∀ i < t.length - 1, is_error (fl i) = false

/-- Records the add loop creates: fresh consecutive ids, given values,
created enabled. -/
def added_records (nid : Nat) : List (Nat × String) → List ROption
  | [] => []
  | p :: rest => ⟨nid, p.2, false⟩ :: added_records (nid + 1) rest

/-- Ids of the records the enable loop addresses: the first match of
each merged desired value, looked up in the phase-entry snapshot. -/
def enabled_ids (opts : List ROption) (l : List String) : List Nat :=
  l.filterMap (fun v => find_option_id opts v)

/-- Calls the enable loop issues: one fresh listing plus one
`updateEnabled(…, true)` per merged desired value, in list order. -/
def enable_calls (opts : List ROption) : List String → List RemoteCall
  | [] => []
  | v :: vs => .listOptions :: .updateEnabled (find_option_id opts v) true
      :: enable_calls opts vs

/-- State of the option list after the disable loop. -/
def disabled_opts (opts : List ROption) (M : List String) : List ROption :=
  opts.map (fun o => if o.optionId ∈ selected_ids opts M
    then ⟨o.optionId, o.value, true⟩ else o)

/-- State of the option list after the enable loop. -/
def enabled_opts (opts : List ROption) (L : List String) : List ROption :=
  opts.map (fun o => if o.optionId ∈ enabled_ids opts L
    then ⟨o.optionId, o.value, false⟩ else o)

/-- Remote state after the three apply phases of one healthy run. -/
def after_apply (s0 : RemoteState) (L : List String) : RemoteState :=
  ⟨enabled_opts (disabled_opts s0.opts (plan (s0.opts.map (fun o => o.value)) L).1
      ++ added_records s0.nextId (plan (s0.opts.map (fun o => o.value)) L).2.enum) L,
   s0.nextId + (plan (s0.opts.map (fun o => o.value)) L).2.length⟩

/-- Remote state at the end of one healthy run: the reorder applied to
the post-apply state. -/
def run_final (s0 : RemoteState) (static_opts L : List String) : RemoteState :=
  applyMove (after_apply s0 L) (reorder_positions static_opts (after_apply s0 L).opts)

theorem char_toNat_inj {a b : Char} (h : a.toNat = b.toNat) : a = b := by
  rcases a with ⟨⟨a, _⟩, _⟩
  rcases b with ⟨⟨b, _⟩, _⟩
  simp only [Char.toNat, UInt32.toNat] at h
  subst h
  rfl

theorem lexLe_total : ∀ a b : List Char, lexLe a b = true ∨ lexLe b a = true
  | [], _ => Or.inl rfl
  | _ :: _, [] => Or.inr rfl
  | a :: as, b :: bs => by
    by_cases hab : a = b
    · subst hab
      simpa [lexLe] using lexLe_total as bs
    · have hba : b ≠ a := fun h => hab h.symm
      have hne : a.toNat ≠ b.toNat := fun h => hab (char_toNat_inj h)
      rcases Nat.lt_or_ge a.toNat b.toNat with h | h
      · exact Or.inl (by simp [lexLe, hab, h])
      · exact Or.inr (by simp [lexLe, hba, Nat.lt_of_le_of_ne h (fun hh => hne hh.symm)])

theorem lexLe_trans : ∀ a b c : List Char,
    lexLe a b = true → lexLe b c = true → lexLe a c = true
  | [], _, _, _, _ => rfl
  | a :: as, b :: bs, c :: cs, hab, hbc => by
    by_cases h1 : a = b
    · subst h1
      by_cases h2 : a = c
      · subst h2
        simp only [lexLe, if_pos rfl] at hab hbc ⊢
        exact lexLe_trans as bs cs hab hbc
      · simpa [lexLe, h2] using hbc
    · by_cases h2 : b = c
      · subst h2
        simpa [lexLe, h1] using hab
      · simp only [lexLe, if_neg h1, decide_eq_true_eq] at hab
        simp only [lexLe, if_neg h2, decide_eq_true_eq] at hbc
        have hac : a.toNat < c.toNat := Nat.lt_trans hab hbc
        have : a ≠ c := fun h => by subst h; exact Nat.lt_irrefl _ (Nat.lt_trans hab hbc)
        simp [lexLe, this, hac]

theorem lexLe_antisymm : ∀ a b : List Char, lexLe a b = true → lexLe b a = true → a = b
  | [], [], _, _ => rfl
  | [], _ :: _, _, h => by simp [lexLe] at h
  | _ :: _, [], h, _ => by simp [lexLe] at h
  | a :: as, b :: bs, hab, hba => by
    by_cases h1 : a = b
    · subst h1
      simp only [lexLe, if_pos rfl] at hab hba
      rw [lexLe_antisymm as bs hab hba]
    · have hba' : b ≠ a := fun h => h1 h.symm
      simp only [lexLe, if_neg h1, decide_eq_true_eq] at hab
      simp only [lexLe, if_neg hba', decide_eq_true_eq] at hba
      exact absurd (Nat.lt_trans hab hba) (Nat.lt_irrefl _)

instance : IsTotal String strLe := ⟨fun a b => lexLe_total a.data b.data⟩

instance : IsTrans String strLe := ⟨fun a b c => lexLe_trans a.data b.data c.data⟩

instance : IsAntisymm String strLe :=
  ⟨fun a b h1 h2 => by
    rcases a with ⟨da⟩
    rcases b with ⟨db⟩
    exact congrArg String.mk (lexLe_antisymm da db h1 h2)⟩

instance : IsRefl String strLe :=
  ⟨fun a => by
    rcases lexLe_total a.data a.data with h | h <;> exact h⟩

/-! ## Claim C3: the diff planner -/

/-- C3: for every pair of finite string sets (given as arbitrary lists,
possibly with duplicates, possibly empty), the planner's `to_disable` is
the lexicographically sorted duplicate-free list of current∖desired and
`to_add` the sorted duplicate-free list of desired∖current; the result
depends only on the two sets — a pure computation. -/
theorem C3_plan_diff (current desired : List String) :
    List.Sorted strLe (plan current desired).1 ∧ (plan current desired).1.Nodup ∧
    (∀ x, x ∈ (plan current desired).1 ↔ x ∈ current ∧ x ∉ desired) ∧
    List.Sorted strLe (plan current desired).2 ∧ (plan current desired).2.Nodup ∧
    (∀ x, x ∈ (plan current desired).2 ↔ x ∈ desired ∧ x ∉ current) := by
  refine ⟨List.sorted_insertionSort _ _, ?_, ?_, List.sorted_insertionSort _ _, ?_, ?_⟩
  · exact ((List.perm_insertionSort _ _).nodup_iff).2
      ((List.nodup_dedup current).filter _)
  · intro x
    simp only [plan]
    rw [(List.perm_insertionSort strLe _).mem_iff]
    simp [List.mem_filter, List.mem_dedup]
  · exact ((List.perm_insertionSort _ _).nodup_iff).2
      ((List.nodup_dedup desired).filter _)
  · intro x
    simp only [plan]
    rw [(List.perm_insertionSort strLe _).mem_iff]
    simp [List.mem_filter, List.mem_dedup]

/-! ## Claim C2: the inverted `updateEnabled` boolean -/

theorem applyUpdateEnabled_flag (s : RemoteState) (oid : Option Nat) (b : Bool) :
    ∀ o ∈ (applyUpdateEnabled s oid b).opts, some o.optionId = oid → o.isDisabled = !b := by
  intro o ho hid
  simp only [applyUpdateEnabled, List.mem_map] at ho
  obtain ⟨a, ha, rfl⟩ := ho
  by_cases h : some a.optionId = oid
  · simp [h]
  · simp only [if_neg h] at hid ⊢
    exact absurd hid h

/-- C2 counterexample: at a concrete state and id, the enable operation
sends `isDisabled = true`, not `isDisabled = false` as claimed. -/
theorem C2_counterexample :
    (Except.map (fun r => r.1.trace)
        (enable_option false okStatus ⟨⟨[⟨5, "X", true⟩], 6⟩, []⟩ (some 5)))
      = .ok [RemoteCall.updateEnabled (some 5) true] ∧
    RemoteCall.updateEnabled (some 5) true ≠ RemoteCall.updateEnabled (some 5) false := by
  exact ⟨rfl, by decide⟩

/-- C2 amended: the enable operation sends `isDisabled = true` and the
disable operation sends `isDisabled = false` to `updateEnabled`; in each
case the boolean sent is the logical inverse of the `isDisabled` flag
the remote then stores for the addressed option (the API interprets the
field invertedly), so enabling leaves the option with
`isDisabled = false` and disabling with `isDisabled = true`. -/
theorem C2_amended (st : RunSt) (oid : Option Nat) :
    (∃ r, enable_option false okStatus st oid = .ok r ∧
      r.1.trace = st.trace ++ [RemoteCall.updateEnabled oid true] ∧
      r.1.s = applyUpdateEnabled st.s oid true ∧
      ∀ o ∈ r.1.s.opts, some o.optionId = oid → o.isDisabled = !true) ∧
    (∃ r, disable_option false okStatus st oid = .ok r ∧
      r.1.trace = st.trace ++ [RemoteCall.updateEnabled oid false] ∧
      r.1.s = applyUpdateEnabled st.s oid false ∧
      ∀ o ∈ r.1.s.opts, some o.optionId = oid → o.isDisabled = !false) :=
  ⟨⟨(⟨applyUpdateEnabled st.s oid true, st.trace ++ [RemoteCall.updateEnabled oid true]⟩,
      some (applyUpdateEnabled st.s oid true).opts),
    rfl, rfl, rfl, applyUpdateEnabled_flag st.s oid true⟩,
   ⟨(⟨applyUpdateEnabled st.s oid false, st.trace ++ [RemoteCall.updateEnabled oid false]⟩,
      some (applyUpdateEnabled st.s oid false).opts),
    rfl, rfl, rfl, applyUpdateEnabled_flag st.s oid false⟩⟩

/-! ## Claim C1: empty input aborts -/

/-- C1 counterexample: with empty desired input and static tail `Other`,
the run aborts with the input failure, but its trace already contains a
remote call (the initial option listing). -/
theorem C1_counterexample :
    run_failure (main_run false ["Other"] [] okStatus ⟨[⟨1, "A", false⟩], 2⟩)
      = some (.input [RemoteCall.listOptions]) ∧
    [RemoteCall.listOptions] ≠ ([] : List RemoteCall) := by
  exact ⟨rfl, by decide⟩

/-- C1 amended: when the merged input contributes no non-blank line, the
run aborts with a non-zero exit (input failure), and the only remote
call made before the abort is the single initial read-only listing — no
mutating call occurs. -/
theorem C1_amended (dry : Bool) (static_opts input_lines : List String) (fl : Nat → Nat)
    (s0 : RemoteState)
    (hempty : (input_lines.map strip).filter (fun l => decide (l ≠ "")) = [])
    (hok : is_error (fl 0) = false) :
    main_run dry static_opts input_lines fl s0 = .error (.input [RemoteCall.listOptions]) ∧
    ∀ c ∈ [RemoteCall.listOptions], c.mutating = false := by
  constructor
  · simp only [main_run, get_options, post, List.length_nil, hok, Bool.false_eq_true,
      if_false, read_input, hempty, List.append_nil, Except.bind]
    rfl
  · intro c hc
    simp only [List.mem_singleton] at hc
    subst hc
    rfl

/-- C1 witness: a concrete empty input satisfying the hypotheses. -/
theorem C1_amended_witness :
    main_run false ["Other"] [] okStatus ⟨[⟨1, "A", false⟩], 2⟩
      = .error (.input [RemoteCall.listOptions]) ∧
    ∀ c ∈ [RemoteCall.listOptions], c.mutating = false :=
  C1_amended false ["Other"] [] okStatus ⟨[⟨1, "A", false⟩], 2⟩ rfl rfl

/-! ## Claim C9: identifier resolution -/

/-- C9: `get_option_id` issues one fresh read of the full remote option
list (leaving state untouched) and returns the `optionId` of the first
option in list order whose `value` equals the argument — earlier entries
do not match — or `none` when no option matches; the result never
depends on any option's `isDisabled` flag. -/
theorem C9_get_option_id (fl : Nat → Nat) (st : RunSt) (v : String)
    (l : List ROption) (i : Nat) (flag : ROption → Bool)
    (hok : is_error (fl st.trace.length) = false) :
    get_option_id fl st v
      = .ok (⟨st.s, st.trace ++ [RemoteCall.listOptions]⟩, find_option_id st.s.opts v) ∧
    (find_option_id l v = some i ↔
      ∃ o pre suf, l = pre ++ o :: suf ∧ o.value = v ∧ o.optionId = i ∧
        ∀ o' ∈ pre, o'.value ≠ v) ∧
    (find_option_id l v = none ↔ ∀ o ∈ l, o.value ≠ v) ∧
    find_option_id (l.map (fun o => ⟨o.optionId, o.value, flag o⟩)) v = find_option_id l v := by
  refine ⟨?_, ?_, ?_, ?_⟩
  · simp only [get_option_id, get_options, post, hok, Bool.false_eq_true, if_false,
      Except.map]
    rfl
  · simp only [find_option_id, Option.map_eq_some']
    constructor
    · rintro ⟨o, ho, rfl⟩
      rw [List.find?_eq_some] at ho
      obtain ⟨hp, pre, suf, rfl, hpre⟩ := ho
      exact ⟨o, pre, suf, rfl, by simpa using hp, rfl,
        fun o' h => by simpa using hpre o' h⟩
    · rintro ⟨o, pre, suf, rfl, hv, rfl, hpre⟩
      refine ⟨o, ?_, rfl⟩
      rw [List.find?_eq_some]
      exact ⟨by simpa using hv, pre, suf, rfl, fun a ha => by simpa using hpre a ha⟩
  · simp only [find_option_id, Option.map_eq_none', List.find?_eq_none,
      decide_eq_true_eq]
  · simp only [find_option_id, List.find?_map, Option.map_map]
    rfl

/-- C9 witness: concrete duplicate-valued list where the first (disabled)
record wins. -/
theorem C9_get_option_id_witness :
    get_option_id okStatus ⟨⟨[⟨7, "X", true⟩, ⟨8, "X", false⟩], 9⟩, []⟩ "X"
      = .ok (⟨⟨[⟨7, "X", true⟩, ⟨8, "X", false⟩], 9⟩, [RemoteCall.listOptions]⟩,
          find_option_id [⟨7, "X", true⟩, ⟨8, "X", false⟩] "X") ∧
    (find_option_id [⟨7, "X", true⟩, ⟨8, "X", false⟩] "X" = some 7 ↔
      ∃ o pre suf, [(⟨7, "X", true⟩ : ROption), ⟨8, "X", false⟩] = pre ++ o :: suf ∧
        o.value = "X" ∧ o.optionId = 7 ∧ ∀ o' ∈ pre, o'.value ≠ "X") ∧
    (find_option_id [⟨7, "X", true⟩, ⟨8, "X", false⟩] "X" = none ↔
      ∀ o ∈ [(⟨7, "X", true⟩ : ROption), ⟨8, "X", false⟩], o.value ≠ "X") ∧
    find_option_id ([(⟨7, "X", true⟩ : ROption), ⟨8, "X", false⟩].map
        (fun o => ⟨o.optionId, o.value, !o.isDisabled⟩)) "X"
      = find_option_id [⟨7, "X", true⟩, ⟨8, "X", false⟩] "X" :=
  C9_get_option_id okStatus ⟨⟨[⟨7, "X", true⟩, ⟨8, "X", false⟩], 9⟩, []⟩ "X"
    [⟨7, "X", true⟩, ⟨8, "X", false⟩] 7 (fun o => !o.isDisabled) rfl

/-! ## Claim C10: at most one disable per planned value -/

theorem map_disable_comp (opts : List ROption) (i : Nat) (ids : List Nat) :
    (opts.map (fun o => if some o.optionId = some i then { o with isDisabled := !false } else o)).map
        (fun o => if o.optionId ∈ ids then ⟨o.optionId, o.value, true⟩ else o)
      = opts.map (fun o => if o.optionId ∈ i :: ids then ⟨o.optionId, o.value, true⟩ else o) := by
  rw [List.map_map]
  refine List.map_congr_left ?_
  intro o _
  by_cases h1 : o.optionId = i <;> by_cases h2 : o.optionId ∈ ids <;>
    simp [Function.comp, h1, h2]

/-- Exact effect of the disable loop (healthy remote, non-dry): one
`updateEnabled(…, false)` call per selected first-match id, in plan
order, and the state flips exactly the records bearing those ids to
disabled. -/
theorem disable_phase_ok (snapshot : List ROption) (missing : List String) (st : RunSt) :
    disable_phase false okStatus snapshot missing st = .ok
      ⟨⟨st.s.opts.map (fun o => if o.optionId ∈ selected_ids snapshot missing
          then ⟨o.optionId, o.value, true⟩ else o), st.s.nextId⟩,
       st.trace ++ (selected_ids snapshot missing).map
         (fun i => RemoteCall.updateEnabled (some i) false)⟩ := by
  induction missing generalizing st with
  | nil =>
    simp only [disable_phase, List.foldlM_nil, selected_ids, List.filterMap_nil,
      List.not_mem_nil, if_false, List.map_nil, List.append_nil, List.map_id']
    rfl
  | cons v rest ih =>
    cases hf : snapshot.find? (fun copt => decide (copt.value = v)) with
    | none =>
      have hstep : disable_phase false okStatus snapshot (v :: rest) st
          = disable_phase false okStatus snapshot rest st := by
        simp only [disable_phase, List.foldlM_cons, hf]
        rfl
      have hsel : selected_ids snapshot (v :: rest) = selected_ids snapshot rest := by
        simp [selected_ids, hf]
      rw [hstep, hsel]
      exact ih st
    | some copt =>
      have hstep : disable_phase false okStatus snapshot (v :: rest) st
          = disable_phase false okStatus snapshot rest
              ⟨applyUpdateEnabled st.s (some copt.optionId) false,
               st.trace ++ [RemoteCall.updateEnabled (some copt.optionId) false]⟩ := by
        simp only [disable_phase, List.foldlM_cons, hf]
        rfl
      have hsel : selected_ids snapshot (v :: rest)
          = copt.optionId :: selected_ids snapshot rest := by
        simp [selected_ids, hf]
      rw [hstep, hsel,
        ih ⟨applyUpdateEnabled st.s (some copt.optionId) false,
            st.trace ++ [RemoteCall.updateEnabled (some copt.optionId) false]⟩]
      simp only [applyUpdateEnabled]
      rw [map_disable_comp]
      simp

/-- C10: during the disable phase each planned value yields at most one
disable call — the id of the first snapshot record with that value —
so the calls are exactly one per found value (never more than the number
of planned values), and an id is disabled iff it is some planned value's
first match; records with other ids keep their flag. -/
theorem C10_disable_first_match_only (snapshot : List ROption) (missing : List String)
    (st : RunSt) :
    disable_phase false okStatus snapshot missing st = .ok
      ⟨⟨st.s.opts.map (fun o => if o.optionId ∈ selected_ids snapshot missing
          then ⟨o.optionId, o.value, true⟩ else o), st.s.nextId⟩,
       st.trace ++ (selected_ids snapshot missing).map
         (fun i => RemoteCall.updateEnabled (some i) false)⟩ ∧
    (selected_ids snapshot missing).length ≤ missing.length ∧
    ∀ i, i ∈ selected_ids snapshot missing ↔
      ∃ v ∈ missing, find_option_id snapshot v = some i := by
  refine ⟨disable_phase_ok snapshot missing st, List.length_filterMap_le _ _, ?_⟩
  intro i
  simp [selected_ids, List.mem_filterMap, find_option_id]

/-! ## Claim C5: the worked example -/

/-- C5 counterexample: in the spec's example scenario
(`current = A,B,Other`, desired file `B,C`, static tail `Other`) the run
also issues an enable call for `Other` (id 3) — the enable loop covers
the full merged list — and the pushed mapping gives `B` position "2",
not "1": the freshly disabled `A` keeps position 1. -/
theorem C5_counterexample :
    main_run false ["Other"] ["B", "C"] okStatus
        ⟨[⟨1, "A", false⟩, ⟨2, "B", false⟩, ⟨3, "Other", false⟩], 4⟩
      = .ok ⟨⟨[⟨1, "A", true⟩, ⟨2, "B", false⟩, ⟨4, "C", false⟩, ⟨3, "Other", false⟩], 5⟩,
        [.listOptions, .updateEnabled (some 1) false, .addOption "C" "0",
         .listOptions, .updateEnabled (some 3) true,
         .listOptions, .updateEnabled (some 2) true,
         .listOptions, .updateEnabled (some 4) true,
         .listOptions, .listOptions,
         .movePositions [(some 1, "1"), (some 2, "2"), (some 4, "3"), (some 3, "4")]]⟩ ∧
    RemoteCall.updateEnabled (some 3) true
      ∈ [RemoteCall.listOptions, .updateEnabled (some 1) false, .addOption "C" "0",
         .listOptions, .updateEnabled (some 3) true,
         .listOptions, .updateEnabled (some 2) true,
         .listOptions, .updateEnabled (some 4) true,
         .listOptions, .listOptions,
         .movePositions [(some 1, "1"), (some 2, "2"), (some 4, "3"), (some 3, "4")]] ∧
    ((some 2 : Option Nat), "2") ∈ [((some 1 : Option Nat), "1"), (some 2, "2"),
      (some 4, "3"), (some 3, "4")] ∧
    ((some 2 : Option Nat), "1") ∉ [((some 1 : Option Nat), "1"), (some 2, "2"),
      (some 4, "3"), (some 3, "4")] := by
  exact ⟨rfl, by decide, by decide, by decide⟩

/-- C5 amended: in that scenario the plan is disable `[A]`, add `[C]`;
the enable phase enables every value of the full merged list
`[Other, B, C]` (including the already-enabled static tail), and the
final pushed ordering is `A` (still listed, now disabled) at 1, `B` at
2, `C` at 3, `Other` at 4. -/
theorem C5_amended :
    plan ["A", "B", "Other"] ["Other", "B", "C"] = (["A"], ["C"]) ∧
    main_run false ["Other"] ["B", "C"] okStatus
        ⟨[⟨1, "A", false⟩, ⟨2, "B", false⟩, ⟨3, "Other", false⟩], 4⟩
      = .ok ⟨⟨[⟨1, "A", true⟩, ⟨2, "B", false⟩, ⟨4, "C", false⟩, ⟨3, "Other", false⟩], 5⟩,
        [.listOptions, .updateEnabled (some 1) false, .addOption "C" "0",
         .listOptions, .updateEnabled (some 3) true,
         .listOptions, .updateEnabled (some 2) true,
         .listOptions, .updateEnabled (some 4) true,
         .listOptions, .listOptions,
         .movePositions [(some 1, "1"), (some 2, "2"), (some 4, "3"), (some 3, "4")]]⟩ := by
  exact ⟨rfl, rfl⟩

/-! ## Claim C6: dry run issues no mutating call -/

theorem ok_bind {α β : Type} (x : α) (f : α → Except RunFail β) :
    (Except.ok x >>= f) = f x := rfl

theorem get_options_ok (fl : Nat → Nat) (st : RunSt)
    (hok : is_error (fl st.trace.length) = false) :
    get_options fl st = .ok (⟨st.s, st.trace ++ [RemoteCall.listOptions]⟩, st.s.opts) := by
  simp only [get_options, post, hok, Bool.false_eq_true, if_false]
  rfl

theorem get_option_id_ok (fl : Nat → Nat) (st : RunSt) (v : String)
    (hok : is_error (fl st.trace.length) = false) :
    get_option_id fl st v
      = .ok (⟨st.s, st.trace ++ [RemoteCall.listOptions]⟩, find_option_id st.s.opts v) := by
  simp only [get_option_id, get_options_ok fl st hok, Except.map]

theorem disable_phase_dry (fl : Nat → Nat) (snapshot : List ROption) (missing : List String)
    (st : RunSt) : disable_phase true fl snapshot missing st = .ok st := by
  induction missing generalizing st with
  | nil => rfl
  | cons v rest ih =>
    cases hf : snapshot.find? (fun copt => decide (copt.value = v)) with
    | none =>
      have hstep : disable_phase true fl snapshot (v :: rest) st
          = disable_phase true fl snapshot rest st := by
        simp only [disable_phase, List.foldlM_cons, hf]
        rfl
      rw [hstep]; exact ih st
    | some copt =>
      have hstep : disable_phase true fl snapshot (v :: rest) st
          = disable_phase true fl snapshot rest st := by
        simp only [disable_phase, List.foldlM_cons, hf]
        rfl
      rw [hstep]; exact ih st

theorem add_fold_dry (fl : Nat → Nat) (l : List (Nat × String)) (st : RunSt) :
    l.foldlM (fun st p => (add_option true fl st p.2 (toString p.1)).map (·.1)) st
      = .ok st := by
  induction l generalizing st with
  | nil => rfl
  | cons p rest ih =>
    rw [List.foldlM_cons]
    exact ih st

theorem add_phase_dry (fl : Nat → Nat) (additions : List String) (st : RunSt) :
    add_phase true fl additions st = .ok st :=
  add_fold_dry fl additions.enum st

theorem enable_phase_dry (fl : Nat → Nat) (option_list : List String) (st : RunSt)
    (hok : ∀ i, is_error (fl i) = false) :
    enable_phase true fl option_list st
      = .ok ⟨st.s, st.trace ++ List.replicate option_list.length RemoteCall.listOptions⟩ := by
  induction option_list generalizing st with
  | nil => simp only [List.length_nil, List.replicate_zero, List.append_nil]; rfl
  | cons v rest ih =>
    have hstep : enable_phase true fl (v :: rest) st
        = enable_phase true fl rest ⟨st.s, st.trace ++ [RemoteCall.listOptions]⟩ := by
      simp only [enable_phase, List.foldlM_cons, get_option_id_ok fl st v (hok _)]
      rfl
    rw [hstep, ih]
    simp [List.replicate_succ]

theorem static_fold_exact (fl : Nat → Nat) (max_pos : Nat) (l : List (Nat × String))
    (st : RunSt) (m : List (Option Nat × String)) (hok : ∀ i, is_error (fl i) = false) :
    l.foldlM (fun stp p => do
        let r ← get_option_id fl stp.1 p.2
        pure (r.1, dictInsert stp.2 r.2 (toString (max_pos + p.1 + 1)))) (st, m)
      = .ok (⟨st.s, st.trace ++ List.replicate l.length RemoteCall.listOptions⟩,
          l.foldl (fun m p =>
            dictInsert m (find_option_id st.s.opts p.2) (toString (max_pos + p.1 + 1))) m) := by
  induction l generalizing st m with
  | nil =>
    simp only [List.length_nil, List.replicate_zero, List.append_nil, List.foldl_nil]
    rfl
  | cons p rest ih =>
    have hstep : (p :: rest).foldlM (fun stp p => do
          let r ← get_option_id fl stp.1 p.2
          pure (r.1, dictInsert stp.2 r.2 (toString (max_pos + p.1 + 1)))) (st, m)
        = rest.foldlM (fun stp p => do
            let r ← get_option_id fl stp.1 p.2
            pure (r.1, dictInsert stp.2 r.2 (toString (max_pos + p.1 + 1))))
            (⟨⟨st.s, st.trace ++ [RemoteCall.listOptions]⟩,
              dictInsert m (find_option_id st.s.opts p.2) (toString (max_pos + p.1 + 1))⟩) := by
      simp only [List.foldlM_cons, get_option_id_ok fl st p.2 (hok _)]
      rfl
    rw [hstep,
      ih ⟨st.s, st.trace ++ [RemoteCall.listOptions]⟩
        (dictInsert m (find_option_id st.s.opts p.2) (toString (max_pos + p.1 + 1)))]
    simp [List.replicate_succ]

/-- The static reorder loop, exactly: one fresh read per static value,
state otherwise unchanged, and the dict extended in declared order with
each static value's id resolved against the current full list. -/
theorem static_positions_phase_exact (fl : Nat → Nat) (static_opts : List String)
    (max_pos : Nat) (st : RunSt) (m : List (Option Nat × String))
    (hok : ∀ i, is_error (fl i) = false) :
    static_positions_phase fl static_opts max_pos (st, m)
      = .ok (⟨st.s, st.trace ++ List.replicate static_opts.length RemoteCall.listOptions⟩,
          static_opts.enum.foldl (fun m p =>
            dictInsert m (find_option_id st.s.opts p.2) (toString (max_pos + p.1 + 1))) m) := by
  have := static_fold_exact fl max_pos static_opts.enum st m hok
  rwa [List.enum_length] at this

/-- C6: with dry-run enabled the four mutating operations perform no
remote call and return the neutral `None`; a whole dry run leaves the
remote state untouched and issues only read (listing) calls — one
initial fetch, one per merged desired value during enable, one reorder
re-fetch and one per static value — so reads still execute normally
regardless of plan size. -/
theorem C6_dry_run (static_opts input_lines : List String) (fl : Nat → Nat)
    (s0 : RemoteState) (st : RunSt) (oid : Option Nat) (v p : String)
    (m : List (Option Nat × String)) (option_list : List String)
    (hread : read_input static_opts input_lines = some option_list)
    (hok : ∀ i, is_error (fl i) = false) :
    disable_option true fl st oid = .ok (st, none) ∧
    enable_option true fl st oid = .ok (st, none) ∧
    add_option true fl st v p = .ok (st, none) ∧
    move_option true fl st m = .ok (st, none) ∧
    main_run true static_opts input_lines fl s0
      = .ok ⟨s0, List.replicate (2 + option_list.length + static_opts.length)
          RemoteCall.listOptions⟩ ∧
    ∀ c ∈ List.replicate (2 + option_list.length + static_opts.length) RemoteCall.listOptions,
      c.mutating = false := by
  have hgo : ∀ stx : RunSt, get_options fl stx
      = .ok (⟨stx.s, stx.trace ++ [RemoteCall.listOptions]⟩, stx.s.opts) :=
    fun stx => get_options_ok fl stx (hok _)
  have hen : ∀ stx : RunSt, enable_phase true fl option_list stx
      = .ok ⟨stx.s, stx.trace ++ List.replicate option_list.length RemoteCall.listOptions⟩ :=
    fun stx => enable_phase_dry fl option_list stx hok
  have hstat : ∀ (mp : Nat) (stx : RunSt) (mx : List (Option Nat × String)),
      static_positions_phase fl static_opts mp (stx, mx)
        = .ok (⟨stx.s, stx.trace ++ List.replicate static_opts.length RemoteCall.listOptions⟩,
            static_opts.enum.foldl (fun m q =>
              dictInsert m (find_option_id stx.s.opts q.2) (toString (mp + q.1 + 1))) mx) :=
    fun mp stx mx => static_positions_phase_exact fl static_opts mp stx mx hok
  have hmv : ∀ (stx : RunSt) (mx : List (Option Nat × String)),
      move_option true fl stx mx = .ok (stx, none) := fun _ _ => rfl
  refine ⟨rfl, rfl, rfl, rfl, ?_, ?_⟩
  · simp only [main_run, hgo, ok_bind, hread, disable_phase_dry, add_phase_dry, hen,
      hstat, hmv]
    refine congrArg Except.ok (congrArg₂ RunSt.mk rfl ?_)
    rw [List.eq_replicate_iff]
    constructor
    · simp only [List.length_append, List.length_replicate, List.length_singleton,
        List.length_nil]
      omega
    · intro b hb
      simp only [List.mem_append, List.mem_replicate, List.mem_singleton,
        List.not_mem_nil] at hb
      rcases hb with ((((h | h) | h) | h) | h) <;> simp_all
  · intro c hc
    rw [List.mem_replicate] at hc
    rw [hc.2]
    rfl

/-- C6 witness: a concrete dry run over a two-option remote state. -/
theorem C6_dry_run_witness :
    disable_option true okStatus ⟨⟨[⟨1, "A", false⟩], 2⟩, []⟩ (some 1)
      = .ok (⟨⟨[⟨1, "A", false⟩], 2⟩, []⟩, none) ∧
    enable_option true okStatus ⟨⟨[⟨1, "A", false⟩], 2⟩, []⟩ (some 1)
      = .ok (⟨⟨[⟨1, "A", false⟩], 2⟩, []⟩, none) ∧
    add_option true okStatus ⟨⟨[⟨1, "A", false⟩], 2⟩, []⟩ "B" "0"
      = .ok (⟨⟨[⟨1, "A", false⟩], 2⟩, []⟩, none) ∧
    move_option true okStatus ⟨⟨[⟨1, "A", false⟩], 2⟩, []⟩ [(some 1, "1")]
      = .ok (⟨⟨[⟨1, "A", false⟩], 2⟩, []⟩, none) ∧
    main_run true ["Other"] ["B"] okStatus ⟨[⟨1, "A", false⟩], 2⟩
      = .ok ⟨⟨[⟨1, "A", false⟩], 2⟩, List.replicate (2 + ["Other", "B"].length + ["Other"].length)
          RemoteCall.listOptions⟩ ∧
    ∀ c ∈ List.replicate (2 + ["Other", "B"].length + ["Other"].length) RemoteCall.listOptions,
      c.mutating = false :=
  C6_dry_run ["Other"] ["B"] okStatus ⟨[⟨1, "A", false⟩], 2⟩
    ⟨⟨[⟨1, "A", false⟩], 2⟩, []⟩ (some 1) "B" "0" [(some 1, "1")] ["Other", "B"]
    rfl (fun _ => rfl)

/-! ## Decimal roundtrip: `parseNat` reads back `toString` -/

theorem mag_of_lt {n : Nat} (h : n < 10) : mag n = 10 := by
  rw [mag, if_pos h]

theorem mag_of_ge {n : Nat} (h : 10 ≤ n) : mag n = 10 * mag (n / 10) := by
  rw [mag, if_neg (by omega)]

theorem digitChar_toNat {m : Nat} (h : m < 10) : (Nat.digitChar m).toNat = 48 + m := by
  interval_cases m <;> rfl

theorem parseNatCore_digit (n acc : Nat) (ds : List Char) (h : n < 10) :
    parseNatCore (Nat.digitChar n :: ds) acc = parseNatCore ds (acc * 10 + n) := by
  have ht := digitChar_toNat h
  simp only [parseNatCore, ht]
  have h1 : ¬(48 + n < 48 ∨ 57 < 48 + n) := by omega
  rw [if_neg h1]
  congr 1
  omega

theorem parseNatCore_toDigitsCore (n : Nat) : ∀ (fuel : Nat) (ds : List Char) (acc : Nat),
    n < fuel →
    parseNatCore (Nat.toDigitsCore 10 fuel n ds) acc = parseNatCore ds (acc * mag n + n) := by
  induction n using Nat.strong_induction_on with
  | _ n ih =>
    intro fuel ds acc hfuel
    cases fuel with
    | zero => omega
    | succ fuel =>
      rw [Nat.toDigitsCore]
      by_cases h0 : n / 10 = 0
      · have hlt : n < 10 := by
          rcases Nat.lt_or_ge n 10 with h | h
          · exact h
          · have h1 : 1 ≤ n / 10 := (Nat.one_le_div_iff (by omega)).2 h
            omega
        rw [if_pos h0]
        rw [parseNatCore_digit _ _ _ (Nat.mod_lt n (by omega))]
        rw [mag_of_lt hlt]
        congr 1
        omega
      · have hge : 10 ≤ n := by
          rcases Nat.lt_or_ge n 10 with h | h
          · exact absurd (Nat.div_eq_of_lt h) h0
          · exact h
        have hn' : n / 10 < n := Nat.div_lt_self (by omega) (by omega)
        have hfuel' : n / 10 < fuel := by omega
        simp only [if_neg h0]
        rw [ih (n / 10) hn' fuel _ acc hfuel']
        rw [parseNatCore_digit _ _ _ (Nat.mod_lt n (by omega))]
        rw [mag_of_ge hge]
        congr 1
        have hdm := Nat.div_add_mod n 10
        calc (acc * mag (n / 10) + n / 10) * 10 + n % 10
            = acc * (10 * mag (n / 10)) + (10 * (n / 10) + n % 10) := by ring
          _ = acc * (10 * mag (n / 10)) + n := by rw [hdm]

theorem toDigitsCore_ne_nil : ∀ (fuel n : Nat) (ds : List Char), 0 < fuel ∨ ds ≠ [] →
    Nat.toDigitsCore 10 fuel n ds ≠ [] := by
  intro fuel
  induction fuel with
  | zero =>
    intro n ds h
    rcases h with h | h
    · omega
    · simpa [Nat.toDigitsCore]
  | succ fuel ih =>
    intro n ds _
    rw [Nat.toDigitsCore]
    by_cases h0 : n / 10 = 0
    · simp [h0]
    · simp only [if_neg h0]
      exact ih (n / 10) (Nat.digitChar (n % 10) :: ds) (Or.inr (by simp))

/-- Decimal roundtrip: the parser reads back the decimal rendering of
any natural number. -/
theorem parseNat_toString (n : Nat) : parseNat (toString n) = some n := by
  show parseNat (Nat.repr n) = some n
  have hne := toDigitsCore_ne_nil (n + 1) n [] (Or.inl (Nat.succ_pos n))
  have hmain := parseNatCore_toDigitsCore n (n + 1) [] 0 (Nat.lt_succ_self n)
  rw [Nat.repr, Nat.toDigits, parseNat]
  have hdata : (List.asString (Nat.toDigitsCore 10 (n + 1) n [])).data
      = Nat.toDigitsCore 10 (n + 1) n [] := rfl
  rw [hdata, if_neg (by simpa [List.isEmpty_iff] using hne), hmain]
  simp [parseNatCore]

/-! ## Claim C4: the reorder position mapping -/

instance : IsTotal ROption (fun a b => strLe a.value b.value) :=
  ⟨fun a b => lexLe_total a.value.data b.value.data⟩

instance : IsTrans ROption (fun a b => strLe a.value b.value) :=
  ⟨fun _ _ _ => lexLe_trans _ _ _⟩

theorem id_inj_of_nodup {snap : List ROption} (h : (snap.map (fun o => o.optionId)).Nodup)
    {a b : ROption} (ha : a ∈ snap) (hb : b ∈ snap) (hid : a.optionId = b.optionId) : a = b :=
  List.inj_on_of_nodup_map h ha hb hid

theorem find_option_id_spec {snap : List ROption} {v : String} {o : ROption}
    (h : snap.find? (fun o => decide (o.value = v)) = some o) :
    o ∈ snap ∧ o.value = v :=
  ⟨List.mem_of_find?_eq_some h, by simpa using List.find?_some h⟩

theorem find_option_id_exists {snap : List ROption} {v : String}
    (hmem : ∃ o ∈ snap, o.value = v) :
    ∃ o ∈ snap, o.value = v ∧ find_option_id snap v = some o.optionId := by
  have hsome : (snap.find? (fun o => decide (o.value = v))).isSome := by
    rw [List.find?_isSome]
    simpa using hmem
  cases hf : snap.find? (fun o => decide (o.value = v)) with
  | none => rw [hf] at hsome; simp at hsome
  | some o =>
    obtain ⟨ho, hv⟩ := find_option_id_spec hf
    exact ⟨o, ho, hv, by simp [find_option_id, hf]⟩

/-- Folding Python-dict insertions whose keys are fresh and pairwise
distinct just appends the pairs in order. -/
theorem foldl_dictInsert_map {α : Type} (l : List α) (key : α → Option Nat)
    (val : α → String) (m0 : List (Option Nat × String))
    (hfresh : ∀ a ∈ l, ∀ q ∈ m0, q.1 ≠ key a)
    (hnd : (l.map key).Nodup) :
    l.foldl (fun m a => dictInsert m (key a) (val a)) m0
      = m0 ++ l.map (fun a => (key a, val a)) := by
  induction l generalizing m0 with
  | nil => simp
  | cons a rest ih =>
    rw [List.foldl_cons]
    have hnotin : ¬(m0.any (fun q => decide (q.1 = key a)) = true) := by
      simp only [List.any_eq_true, decide_eq_true_eq]
      rintro ⟨q, hq, hq1⟩
      exact hfresh a (by simp) q hq hq1
    rw [dictInsert, if_neg hnotin]
    simp only [List.map_cons, List.nodup_cons] at hnd
    rw [ih (m0 ++ [(key a, val a)])]
    · simp
    · intro r hr q hq
      rcases List.mem_append.1 hq with h | h
      · exact hfresh r (List.mem_cons_of_mem _ hr) q h
      · rcases List.mem_singleton.1 h with rfl
        intro hq1
        simp only at hq1
        exact hnd.1 (by rw [hq1]; exact List.mem_map_of_mem key hr)
    · exact hnd.2

theorem sorted_nonstatic_ids_nodup (static_opts : List String) (snap : List ROption)
    (hids : (snap.map (fun o => o.optionId)).Nodup) :
    ((sorted_nonstatic static_opts snap).map (fun o => o.optionId)).Nodup := by
  have hsub : ((snap.filter (fun o => decide (o.value ∉ static_opts))).map
        (fun o => o.optionId)).Sublist (snap.map (fun o => o.optionId)) :=
    List.Sublist.map _ (List.filter_sublist snap)
  have hnd := hids.sublist hsub
  exact ((List.perm_insertionSort (fun a b => strLe a.value b.value)
    (snap.filter (fun o : ROption => decide (o.value ∉ static_opts)))).map
      (fun o : ROption => o.optionId)).nodup_iff.2 hnd

theorem sorted_nonstatic_mem {static_opts : List String} {snap : List ROption}
    {o : ROption} (h : o ∈ sorted_nonstatic static_opts snap) :
    o ∈ snap ∧ o.value ∉ static_opts := by
  have := (List.perm_insertionSort (fun a b => strLe a.value b.value)
    (snap.filter (fun o : ROption => decide (o.value ∉ static_opts)))).mem_iff.1 h
  have h2 := List.mem_filter.1 this
  exact ⟨h2.1, by simpa using h2.2⟩

theorem nonstatic_positions_eq (static_opts : List String) (snap : List ROption)
    (hids : (snap.map (fun o => o.optionId)).Nodup) :
    nonstatic_positions static_opts snap
      = (sorted_nonstatic static_opts snap).enum.map
          (fun p => (some p.2.optionId, toString (p.1 + 1))) := by
  have hnd : ((sorted_nonstatic static_opts snap).enum.map
      (fun p => (some p.2.optionId : Option Nat))).Nodup := by
    have h1 : (fun p : Nat × ROption => (some p.2.optionId : Option Nat))
        = (fun o : ROption => (some o.optionId : Option Nat)) ∘ Prod.snd := rfl
    rw [h1, ← List.map_map, List.enum_map_snd]
    have h2 : (fun o : ROption => (some o.optionId : Option Nat))
        = Option.some ∘ (fun o : ROption => o.optionId) := rfl
    rw [h2, ← List.map_map]
    exact (sorted_nonstatic_ids_nodup static_opts snap hids).map
      (Option.some_injective Nat)
  have h := foldl_dictInsert_map (sorted_nonstatic static_opts snap).enum
    (fun p => (some p.2.optionId : Option Nat)) (fun p => toString (p.1 + 1)) []
    (fun a _ q hq => absurd hq (List.not_mem_nil q)) hnd
  simpa [nonstatic_positions, sorted_nonstatic] using h

theorem find_option_id_some_inv {snap : List ROption} {v : String} {i : Nat}
    (h : find_option_id snap v = some i) :
    ∃ o ∈ snap, o.value = v ∧ o.optionId = i := by
  simp only [find_option_id, Option.map_eq_some'] at h
  obtain ⟨o, hf, rfl⟩ := h
  obtain ⟨ho, hv⟩ := find_option_id_spec hf
  exact ⟨o, ho, hv, rfl⟩

/-- A non-static sorted entry's id never equals a static value's resolved
id (distinct records, distinct ids). -/
theorem key_conflict_false {static_opts : List String} {snap : List ROption}
    (hids : (snap.map (fun o => o.optionId)).Nodup) {p : ROption}
    (hp : p ∈ sorted_nonstatic static_opts snap) {v : String} (hv : v ∈ static_opts)
    (heq2 : find_option_id snap v = some p.optionId) : False := by
  obtain ⟨o, ho, hov, hoid⟩ := find_option_id_some_inv heq2
  obtain ⟨hpmem, hpnot⟩ := sorted_nonstatic_mem hp
  have : o = p := id_inj_of_nodup hids ho hpmem hoid
  subst this
  rw [hov] at hpnot
  exact hpnot hv

theorem static_keys_nodup (static_opts : List String) (snap : List ROption)
    (hids : (snap.map (fun o => o.optionId)).Nodup)
    (hmem : ∀ v ∈ static_opts, ∃ o ∈ snap, o.value = v)
    (hsnodup : static_opts.Nodup) :
    (static_opts.enum.map (fun p => find_option_id snap p.2)).Nodup := by
  have h1 : (fun p : Nat × String => find_option_id snap p.2)
      = (fun v => find_option_id snap v) ∘ Prod.snd := rfl
  rw [h1, ← List.map_map, List.enum_map_snd]
  refine List.Nodup.map_on ?_ hsnodup
  intro x hx y hy hxy
  obtain ⟨ox, hox, hoxv, hfx⟩ := find_option_id_exists (hmem x hx)
  obtain ⟨oy, hoy, hoyv, hfy⟩ := find_option_id_exists (hmem y hy)
  rw [hfx, hfy] at hxy
  simp only [Option.some_inj] at hxy
  have := id_inj_of_nodup hids hox hoy hxy
  rw [← hoxv, ← hoyv, this]

theorem reorder_positions_eq (static_opts : List String) (snap : List ROption)
    (hids : (snap.map (fun o => o.optionId)).Nodup)
    (hmem : ∀ v ∈ static_opts, ∃ o ∈ snap, o.value = v)
    (hsnodup : static_opts.Nodup) :
    reorder_positions static_opts snap
      = (sorted_nonstatic static_opts snap).enum.map
          (fun p => (some p.2.optionId, toString (p.1 + 1)))
        ++ static_opts.enum.map (fun p => (find_option_id snap p.2,
            toString ((sorted_nonstatic static_opts snap).length + p.1 + 1))) := by
  have hnp := nonstatic_positions_eq static_opts snap hids
  have hlen : (nonstatic_positions static_opts snap).length
      = (sorted_nonstatic static_opts snap).length := by
    rw [hnp, List.length_map, List.enum_length]
  have hfresh : ∀ a ∈ static_opts.enum, ∀ q ∈ nonstatic_positions static_opts snap,
      q.1 ≠ find_option_id snap a.2 := by
    intro a ha q hq
    rw [hnp] at hq
    obtain ⟨p, hp, rfl⟩ := List.mem_map.1 hq
    have hpmem : p.2 ∈ sorted_nonstatic static_opts snap := by
      have := List.mem_map_of_mem Prod.snd hp
      rwa [List.enum_map_snd] at this
    have ha2 : a.2 ∈ static_opts := by
      have := List.mem_map_of_mem Prod.snd ha
      rwa [List.enum_map_snd] at this
    intro hcontra
    exact key_conflict_false hids hpmem ha2 hcontra.symm
  have hnd2 := static_keys_nodup static_opts snap hids hmem hsnodup
  have h := foldl_dictInsert_map static_opts.enum
    (fun p => find_option_id snap p.2)
    (fun p => toString ((nonstatic_positions static_opts snap).length + p.1 + 1))
    (nonstatic_positions static_opts snap) hfresh hnd2
  calc reorder_positions static_opts snap
      = nonstatic_positions static_opts snap
        ++ static_opts.enum.map (fun p => (find_option_id snap p.2,
            toString ((nonstatic_positions static_opts snap).length + p.1 + 1))) := by
        simpa [reorder_positions] using h
    _ = _ := by rw [hlen, hnp]

/-- C4 counterexample: with snapshot `A` (disabled), `B` (enabled),
`Other` (static), the pushed mapping contains the disabled `A` at
position "1" and gives the sole enabled non-static option `B` position
"2", not "1"; the claim's description of the mapping (enabled options
only, ascending from 1) fails on it. -/
theorem C4_counterexample :
    reorder_positions ["Other"] [⟨1, "A", true⟩, ⟨2, "B", false⟩, ⟨3, "Other", false⟩]
      = [(some 1, "1"), (some 2, "2"), (some 3, "3")] ∧
    ((some 2 : Option Nat), "1") ∉ [((some 1 : Option Nat), "1"), (some 2, "2"), (some 3, "3")] ∧
    ((some 1 : Option Nat), "1") ∈ [((some 1 : Option Nat), "1"), (some 2, "2"), (some 3, "3")] ∧
    [(⟨1, "A", true⟩ : ROption), ⟨2, "B", false⟩, ⟨3, "Other", false⟩].filter
        (fun o => !o.isDisabled && decide (o.value ∉ ["Other"])) = [⟨2, "B", false⟩] := by
  exact ⟨rfl, by decide, by decide, rfl⟩

/-- C4 amended: the mapping pushed by the reorder phase lists every
non-static option of the re-fetched snapshot (enabled or disabled)
exactly once, sorted ascending lexicographically by `value` with
positions starting at 1; the static-tail values occupy the final slots
in declared order; and the positions parse back to the contiguous
integer sequence 1..K with no gaps or duplicates (keys are pairwise
distinct). -/
theorem C4_amended (static_opts : List String) (snap : List ROption)
    (hids : (snap.map (fun o => o.optionId)).Nodup)
    (hmem : ∀ v ∈ static_opts, ∃ o ∈ snap, o.value = v)
    (hsnodup : static_opts.Nodup) :
    reorder_positions static_opts snap
      = (sorted_nonstatic static_opts snap).enum.map
          (fun p => (some p.2.optionId, toString (p.1 + 1)))
        ++ static_opts.enum.map (fun p => (find_option_id snap p.2,
            toString ((sorted_nonstatic static_opts snap).length + p.1 + 1))) ∧
    (sorted_nonstatic static_opts snap).Perm
      (snap.filter (fun o => decide (o.value ∉ static_opts))) ∧
    List.Sorted (fun a b => strLe a.value b.value) (sorted_nonstatic static_opts snap) ∧
    (reorder_positions static_opts snap).map (fun p => (parseNat p.2).getD 0)
      = (List.range ((sorted_nonstatic static_opts snap).length + static_opts.length)).map
          (· + 1) ∧
    ((reorder_positions static_opts snap).map Prod.fst).Nodup := by
  have heq := reorder_positions_eq static_opts snap hids hmem hsnodup
  refine ⟨heq, List.perm_insertionSort _ _, List.sorted_insertionSort _ _, ?_, ?_⟩
  · rw [heq, List.map_append, List.map_map, List.map_map]
    have e1 : ((fun p : Option Nat × String => (parseNat p.2).getD 0) ∘
        (fun p : Nat × ROption => ((some p.2.optionId : Option Nat), toString (p.1 + 1))))
        = fun p : Nat × ROption => p.1 + 1 := by
      funext p
      simp [Function.comp, parseNat_toString]
    have e2 : ((fun p : Option Nat × String => (parseNat p.2).getD 0) ∘
        (fun p : Nat × String => (find_option_id snap p.2,
          toString ((sorted_nonstatic static_opts snap).length + p.1 + 1))))
        = fun p : Nat × String =>
            (sorted_nonstatic static_opts snap).length + p.1 + 1 := by
      funext p
      simp [Function.comp, parseNat_toString]
    rw [e1, e2]
    have e3 : (sorted_nonstatic static_opts snap).enum.map (fun p : Nat × ROption => p.1 + 1)
        = (List.range (sorted_nonstatic static_opts snap).length).map (· + 1) := by
      rw [show (fun p : Nat × ROption => p.1 + 1) = (fun i => i + 1) ∘ Prod.fst from rfl,
        ← List.map_map, List.enum_map_fst]
    have e4 : static_opts.enum.map
        (fun p : Nat × String => (sorted_nonstatic static_opts snap).length + p.1 + 1)
        = (List.range static_opts.length).map
            (fun i => (sorted_nonstatic static_opts snap).length + i + 1) := by
      rw [show (fun p : Nat × String => (sorted_nonstatic static_opts snap).length + p.1 + 1)
        = (fun i => (sorted_nonstatic static_opts snap).length + i + 1) ∘ Prod.fst from rfl,
        ← List.map_map, List.enum_map_fst]
    rw [e3, e4, List.range_add, List.map_append, List.map_map]
    congr 1
  · rw [heq, List.map_append, List.nodup_append, List.map_map, List.map_map]
    have e5 : (Prod.fst ∘ (fun p : Nat × ROption =>
        ((some p.2.optionId : Option Nat), toString (p.1 + 1))))
        = fun p : Nat × ROption => (some p.2.optionId : Option Nat) := rfl
    have e6 : (Prod.fst ∘ (fun p : Nat × String => (find_option_id snap p.2,
        toString ((sorted_nonstatic static_opts snap).length + p.1 + 1))))
        = fun p : Nat × String => find_option_id snap p.2 := rfl
    rw [e5, e6]
    refine ⟨?_, static_keys_nodup static_opts snap hids hmem hsnodup, ?_⟩
    · have h1 : (fun p : Nat × ROption => (some p.2.optionId : Option Nat))
          = (fun o : ROption => (some o.optionId : Option Nat)) ∘ Prod.snd := rfl
      rw [h1, ← List.map_map, List.enum_map_snd]
      have h2 : (fun o : ROption => (some o.optionId : Option Nat))
          = Option.some ∘ (fun o : ROption => o.optionId) := rfl
      rw [h2, ← List.map_map]
      exact (sorted_nonstatic_ids_nodup static_opts snap hids).map
        (Option.some_injective Nat)
    · intro a ha hb
      obtain ⟨p, hp, rfl⟩ := List.mem_map.1 ha
      obtain ⟨q, hq, hqe⟩ := List.mem_map.1 hb
      have hpmem : p.2 ∈ sorted_nonstatic static_opts snap := by
        have := List.mem_map_of_mem Prod.snd hp
        rwa [List.enum_map_snd] at this
      have hq2 : q.2 ∈ static_opts := by
        have := List.mem_map_of_mem Prod.snd hq
        rwa [List.enum_map_snd] at this
      exact key_conflict_false hids hpmem hq2 hqe

/-- C4 witness: the amended invariant at a concrete snapshot that holds a
disabled non-static record. -/
theorem C4_amended_witness :
    reorder_positions ["Other"] [⟨1, "A", true⟩, ⟨2, "B", false⟩, ⟨3, "Other", false⟩]
      = (sorted_nonstatic ["Other"]
            [⟨1, "A", true⟩, ⟨2, "B", false⟩, ⟨3, "Other", false⟩]).enum.map
          (fun p => (some p.2.optionId, toString (p.1 + 1)))
        ++ ["Other"].enum.map (fun p =>
            (find_option_id [⟨1, "A", true⟩, ⟨2, "B", false⟩, ⟨3, "Other", false⟩] p.2,
             toString ((sorted_nonstatic ["Other"]
                 [⟨1, "A", true⟩, ⟨2, "B", false⟩, ⟨3, "Other", false⟩]).length + p.1 + 1))) ∧
    (sorted_nonstatic ["Other"] [⟨1, "A", true⟩, ⟨2, "B", false⟩, ⟨3, "Other", false⟩]).Perm
      ([(⟨1, "A", true⟩ : ROption), ⟨2, "B", false⟩, ⟨3, "Other", false⟩].filter
        (fun o => decide (o.value ∉ ["Other"]))) ∧
    List.Sorted (fun a b => strLe a.value b.value)
      (sorted_nonstatic ["Other"] [⟨1, "A", true⟩, ⟨2, "B", false⟩, ⟨3, "Other", false⟩]) ∧
    (reorder_positions ["Other"]
        [⟨1, "A", true⟩, ⟨2, "B", false⟩, ⟨3, "Other", false⟩]).map
          (fun p => (parseNat p.2).getD 0)
      = (List.range ((sorted_nonstatic ["Other"]
          [⟨1, "A", true⟩, ⟨2, "B", false⟩, ⟨3, "Other", false⟩]).length
            + (["Other"] : List String).length)).map (· + 1) ∧
    ((reorder_positions ["Other"]
        [⟨1, "A", true⟩, ⟨2, "B", false⟩, ⟨3, "Other", false⟩]).map Prod.fst).Nodup :=
  C4_amended ["Other"] [⟨1, "A", true⟩, ⟨2, "B", false⟩, ⟨3, "Other", false⟩]
    (by decide) (by decide) (by decide)

/-! ## Claim C7: error propagation -/

theorem error_bind {β : Type} (e : RunFail) (f : RunSt → Except RunFail β) :
    ((Except.error e : Except RunFail RunSt) >>= f) = .error e := rfl

theorem post_prop (fl : Nat → Nat) (st : RunSt) (c : RemoteCall) (h : CleanSt fl st) :
    (∃ x, post fl st c = .ok x ∧ x.1.trace = st.trace ++ [c] ∧ x.1.s = applyCall st.s c ∧
      CleanSt fl x.1) ∨
    (∃ t, post fl st c = .error (.transport t) ∧ ErrAtEnd fl t) := by
  by_cases he : is_error (fl st.trace.length) = true
  · refine Or.inr ⟨st.trace ++ [c], ?_, ?_, ?_, ?_⟩
    · simp [post, he]
    · simp
    · simpa using he
    · intro i hi
      simp only [List.length_append, List.length_singleton] at hi
      exact h i (by omega)
  · refine Or.inl ⟨(⟨applyCall st.s c, st.trace ++ [c]⟩, (applyCall st.s c).opts),
      ?_, rfl, rfl, ?_⟩
    · simp only [Bool.not_eq_true] at he
      simp [post, he]
    · intro i hi
      simp only [CleanSt, List.length_append, List.length_singleton] at hi ⊢
      rcases Nat.lt_or_ge i st.trace.length with h2 | h2
      · exact h i h2
      · have hie : i = st.trace.length := by omega
        subst hie
        simpa using he

theorem foldlM_prop {σ α : Type} (fl : Nat → Nat) (proj : σ → RunSt)
    (f : σ → α → Except RunFail σ)
    (Hf : ∀ s a, CleanSt fl (proj s) →
      (∃ s', f s a = .ok s' ∧ CleanSt fl (proj s')) ∨
      (∃ t, f s a = .error (.transport t) ∧ ErrAtEnd fl t)) :
    ∀ (l : List α) (s : σ), CleanSt fl (proj s) →
      (∃ s', l.foldlM f s = .ok s' ∧ CleanSt fl (proj s')) ∨
      (∃ t, l.foldlM f s = .error (.transport t) ∧ ErrAtEnd fl t) := by
  intro l
  induction l with
  | nil => exact fun s hs => Or.inl ⟨s, rfl, hs⟩
  | cons a rest ih =>
    intro s hs
    rw [List.foldlM_cons]
    rcases Hf s a hs with ⟨s', hok, hs'⟩ | ⟨t, herr, ht⟩
    · rw [hok]
      show _ ∨ _
      rw [show (Except.ok s' >>= fun b => rest.foldlM f b) = rest.foldlM f s' from rfl]
      exact ih s' hs'
    · rw [herr]
      exact Or.inr ⟨t, rfl, ht⟩

theorem disable_phase_prop (dry : Bool) (fl : Nat → Nat) (snapshot : List ROption)
    (missing : List String) (st : RunSt) (h : CleanSt fl st) :
    (∃ st', disable_phase dry fl snapshot missing st = .ok st' ∧ CleanSt fl st') ∨
    (∃ t, disable_phase dry fl snapshot missing st = .error (.transport t) ∧ ErrAtEnd fl t) := by
  refine foldlM_prop fl id _ ?_ missing st h
  intro s a hs
  cases hf : snapshot.find? (fun copt => decide (copt.value = a)) with
  | none => exact Or.inl ⟨s, rfl, hs⟩
  | some copt =>
    cases dry with
    | true => exact Or.inl ⟨s, rfl, hs⟩
    | false =>
      rcases post_prop fl s (.updateEnabled (some copt.optionId) false) hs with
        ⟨x, hok, _, _, hc⟩ | ⟨t, herr, ht⟩
      · refine Or.inl ⟨x.1, ?_, hc⟩
        show ((post fl s (.updateEnabled (some copt.optionId) false)).map
          (fun r => (r.1, some r.2))).map (fun r => r.1) = .ok x.1
        rw [hok]
        rfl
      · refine Or.inr ⟨t, ?_, ht⟩
        show ((post fl s (.updateEnabled (some copt.optionId) false)).map
          (fun r => (r.1, some r.2))).map (fun r => r.1) = .error (.transport t)
        rw [herr]
        rfl

theorem add_phase_prop (dry : Bool) (fl : Nat → Nat) (additions : List String)
    (st : RunSt) (h : CleanSt fl st) :
    (∃ st', add_phase dry fl additions st = .ok st' ∧ CleanSt fl st') ∨
    (∃ t, add_phase dry fl additions st = .error (.transport t) ∧ ErrAtEnd fl t) := by
  refine foldlM_prop fl id _ ?_ additions.enum st h
  intro s a hs
  cases dry with
  | true => exact Or.inl ⟨s, rfl, hs⟩
  | false =>
    rcases post_prop fl s (.addOption a.2 (toString a.1)) hs with
      ⟨x, hok, _, _, hc⟩ | ⟨t, herr, ht⟩
    · refine Or.inl ⟨x.1, ?_, hc⟩
      show ((post fl s (.addOption a.2 (toString a.1))).map
        (fun r => (r.1, some r.2))).map (fun r => r.1) = .ok x.1
      rw [hok]
      rfl
    · refine Or.inr ⟨t, ?_, ht⟩
      show ((post fl s (.addOption a.2 (toString a.1))).map
        (fun r => (r.1, some r.2))).map (fun r => r.1) = .error (.transport t)
      rw [herr]
      rfl

theorem enable_phase_prop (dry : Bool) (fl : Nat → Nat) (option_list : List String)
    (st : RunSt) (h : CleanSt fl st) :
    (∃ st', enable_phase dry fl option_list st = .ok st' ∧ CleanSt fl st') ∨
    (∃ t, enable_phase dry fl option_list st = .error (.transport t) ∧ ErrAtEnd fl t) := by
  refine foldlM_prop fl id _ ?_ option_list st h
  intro s a hs
  rcases post_prop fl s .listOptions hs with ⟨x, hok, _, _, hc⟩ | ⟨t, herr, ht⟩
  · have hgid : get_option_id fl s a = .ok (x.1, find_option_id x.2 a) := by
      rw [get_option_id, get_options, hok]
      rfl
    rw [hgid]
    cases dry with
    | true => exact Or.inl ⟨x.1, rfl, hc⟩
    | false =>
      rcases post_prop fl x.1 (.updateEnabled (find_option_id x.2 a) true) hc with
        ⟨y, hok2, _, _, hc2⟩ | ⟨t, herr2, ht2⟩
      · refine Or.inl ⟨y.1, ?_, hc2⟩
        show ((post fl x.1 (.updateEnabled (find_option_id x.2 a) true)).map
          (fun r => (r.1, some r.2))).map (fun r => r.1) = .ok y.1
        rw [hok2]
        rfl
      · refine Or.inr ⟨t, ?_, ht2⟩
        show ((post fl x.1 (.updateEnabled (find_option_id x.2 a) true)).map
          (fun r => (r.1, some r.2))).map (fun r => r.1) = .error (.transport t)
        rw [herr2]
        rfl
  · refine Or.inr ⟨t, ?_, ht⟩
    have hgid : get_option_id fl s a = .error (.transport t) := by
      rw [get_option_id, get_options, herr]
      rfl
    rw [hgid]
    rfl

theorem static_positions_phase_prop (fl : Nat → Nat) (static_opts : List String)
    (max_pos : Nat) (stp : RunSt × List (Option Nat × String))
    (h : CleanSt fl stp.1) :
    (∃ stp', static_positions_phase fl static_opts max_pos stp = .ok stp' ∧
      CleanSt fl stp'.1) ∨
    (∃ t, static_positions_phase fl static_opts max_pos stp
      = .error (.transport t) ∧ ErrAtEnd fl t) := by
  refine foldlM_prop fl Prod.fst _ ?_ static_opts.enum stp h
  intro s a hs
  rcases post_prop fl s.1 .listOptions hs with ⟨x, hok, _, _, hc⟩ | ⟨t, herr, ht⟩
  · have hgid : get_option_id fl s.1 a.2 = .ok (x.1, find_option_id x.2 a.2) := by
      rw [get_option_id, get_options, hok]
      rfl
    rw [hgid]
    exact Or.inl ⟨(x.1, dictInsert s.2 (find_option_id x.2 a.2)
      (toString (max_pos + a.1 + 1))), rfl, hc⟩
  · have hgid : get_option_id fl s.1 a.2 = .error (.transport t) := by
      rw [get_option_id, get_options, herr]
      rfl
    rw [hgid]
    exact Or.inr ⟨t, rfl, ht⟩

theorem main_run_prop (dry : Bool) (static_opts input_lines : List String)
    (fl : Nat → Nat) (s0 : RemoteState) :
    (∃ st', main_run dry static_opts input_lines fl s0 = .ok st' ∧ CleanSt fl st') ∨
    (∃ t, main_run dry static_opts input_lines fl s0 = .error (.transport t) ∧
      ErrAtEnd fl t) ∨
    (∃ t, main_run dry static_opts input_lines fl s0 = .error (.input t) ∧
      ∀ i < t.length, is_error (fl i) = false) := by
  have h0 : CleanSt fl ⟨s0, []⟩ := by intro i hi; simp [RunSt.trace] at hi
  rcases post_prop fl ⟨s0, []⟩ .listOptions h0 with ⟨x, hok0, _, _, hc0⟩ | ⟨t, herr0, ht0⟩
  · have hgo : get_options fl ⟨s0, []⟩ = .ok x := by rw [get_options]; exact hok0
    cases hread : read_input static_opts input_lines with
    | none =>
      refine Or.inr (Or.inr ⟨x.1.trace, ?_, fun i hi => hc0 i hi⟩)
      simp only [main_run, hgo, ok_bind, hread]
    | some option_list =>
      simp only [main_run, hgo, ok_bind, hread]
      rcases disable_phase_prop dry fl x.2
          (plan (x.2.map (fun x => x.value)) option_list).1 x.1 hc0 with
        ⟨st2, hd, hc2⟩ | ⟨t, hd, ht⟩
      · rw [hd, ok_bind]
        rcases add_phase_prop dry fl
            (plan (x.2.map (fun x => x.value)) option_list).2 st2 hc2 with
          ⟨st3, ha, hc3⟩ | ⟨t, ha, ht⟩
        · rw [ha, ok_bind]
          rcases enable_phase_prop dry fl option_list st3 hc3 with
            ⟨st4, he, hc4⟩ | ⟨t, he, ht⟩
          · rw [he, ok_bind]
            rcases post_prop fl st4 .listOptions hc4 with
              ⟨y, hok1, _, _, hc5⟩ | ⟨t, herr1, ht1⟩
            · have hgo1 : get_options fl st4 = .ok y := by rw [get_options]; exact hok1
              rw [hgo1, ok_bind]
              rcases static_positions_phase_prop fl static_opts
                  (nonstatic_positions static_opts y.2).length
                  (y.1, nonstatic_positions static_opts y.2) hc5 with
                ⟨stp, hsp, hc6⟩ | ⟨t, hsp, ht2⟩
              · rw [hsp, ok_bind]
                cases dry with
                | true => exact Or.inl ⟨stp.1, rfl, hc6⟩
                | false =>
                  rcases post_prop fl stp.1 (.movePositions stp.2) hc6 with
                    ⟨z, hok2, _, _, hc7⟩ | ⟨t, herr2, ht3⟩
                  · refine Or.inl ⟨z.1, ?_, hc7⟩
                    show (do
                      let r2 ← (post fl stp.1 (.movePositions stp.2)).map
                        (fun r : RunSt × List ROption => (r.1, some r.2))
                      Except.ok r2.1) = .ok z.1
                    rw [hok2]
                    rfl
                  · refine Or.inr (Or.inl ⟨t, ?_, ht3⟩)
                    show (do
                      let r2 ← (post fl stp.1 (.movePositions stp.2)).map
                        (fun r : RunSt × List ROption => (r.1, some r.2))
                      Except.ok r2.1) = .error (.transport t)
                    rw [herr2]
                    rfl
              · rw [hsp]
                exact Or.inr (Or.inl ⟨t, rfl, ht2⟩)
            · have hgo1 : get_options fl st4 = .error (.transport t) := by
                rw [get_options]; exact herr1
              rw [hgo1]
              exact Or.inr (Or.inl ⟨t, rfl, ht1⟩)
          · rw [he]
            exact Or.inr (Or.inl ⟨t, rfl, ht⟩)
        · rw [ha]
          exact Or.inr (Or.inl ⟨t, rfl, ht⟩)
      · rw [hd]
        exact Or.inr (Or.inl ⟨t, rfl, ht⟩)
  · have hgo : get_options fl ⟨s0, []⟩ = .error (.transport t) := by
      rw [get_options]; exact herr0
    refine Or.inr (Or.inl ⟨t, ?_, ht0⟩)
    simp only [main_run, hgo]
    rfl

/-- C7: during the disable phase a planned value with no match in the
fetched snapshot is skipped — the step issues no call, raises nothing,
and the loop continues with the remaining values — and nothing else is
swallowed: a run that returns success had no failing call at all, a
transport failure aborts the run exactly at the first failing call (the
trace ends with the failing call and every earlier call succeeded), and
the empty-input abort only happens with every issued call succeeded. -/
theorem C7_error_propagation (dry : Bool) (static_opts input_lines : List String)
    (fl : Nat → Nat) (s0 : RemoteState) (snapshot : List ROption)
    (v : String) (rest : List String) (st : RunSt) :
    (snapshot.find? (fun o => decide (o.value = v)) = none →
      disable_phase dry fl snapshot (v :: rest) st = disable_phase dry fl snapshot rest st) ∧
    (∀ st', main_run dry static_opts input_lines fl s0 = .ok st' →
      ∀ i < st'.trace.length, is_error (fl i) = false) ∧
    (∀ t, main_run dry static_opts input_lines fl s0 = .error (.transport t) →
      t ≠ [] ∧ is_error (fl (t.length - 1)) = true ∧
        ∀ i < t.length - 1, is_error (fl i) = false) ∧
    (∀ t, main_run dry static_opts input_lines fl s0 = .error (.input t) →
      ∀ i < t.length, is_error (fl i) = false) := by
  refine ⟨?_, ?_, ?_, ?_⟩
  · intro hf
    simp only [disable_phase, List.foldlM_cons, hf]
    rfl
  · intro st' hok
    rcases main_run_prop dry static_opts input_lines fl s0 with
      ⟨st'', h1, h2⟩ | ⟨t, h1, _⟩ | ⟨t, h1, _⟩
    · rw [hok] at h1
      cases h1
      exact h2
    · rw [hok] at h1
      cases h1
    · rw [hok] at h1
      cases h1
  · intro t herr
    rcases main_run_prop dry static_opts input_lines fl s0 with
      ⟨st'', h1, _⟩ | ⟨t', h1, h2⟩ | ⟨t', h1, _⟩
    · rw [herr] at h1
      cases h1
    · rw [herr] at h1
      cases h1
      exact h2
    · rw [herr] at h1
      cases h1
  · intro t herr
    rcases main_run_prop dry static_opts input_lines fl s0 with
      ⟨st'', h1, _⟩ | ⟨t', h1, _⟩ | ⟨t', h1, h2⟩
    · rw [herr] at h1
      cases h1
    · rw [herr] at h1
      cases h1
    · rw [herr] at h1
      cases h1
      exact h2

/-- C7 witness: concrete instantiation of the propagation properties. -/
theorem C7_error_propagation_witness :
    (([⟨1, "A", false⟩] : List ROption).find? (fun o => decide (o.value = "Z")) = none →
      disable_phase false okStatus [⟨1, "A", false⟩] ["Z"] ⟨⟨[⟨1, "A", false⟩], 2⟩, []⟩
        = disable_phase false okStatus [⟨1, "A", false⟩] [] ⟨⟨[⟨1, "A", false⟩], 2⟩, []⟩) ∧
    (∀ st', main_run false ["Other"] ["B"] okStatus ⟨[⟨1, "A", false⟩], 2⟩ = .ok st' →
      ∀ i < st'.trace.length, is_error (okStatus i) = false) ∧
    (∀ t, main_run false ["Other"] ["B"] okStatus ⟨[⟨1, "A", false⟩], 2⟩
        = .error (.transport t) →
      t ≠ [] ∧ is_error (okStatus (t.length - 1)) = true ∧
        ∀ i < t.length - 1, is_error (okStatus i) = false) ∧
    (∀ t, main_run false ["Other"] ["B"] okStatus ⟨[⟨1, "A", false⟩], 2⟩
        = .error (.input t) →
      ∀ i < t.length, is_error (okStatus i) = false) :=
  C7_error_propagation false ["Other"] ["B"] okStatus ⟨[⟨1, "A", false⟩], 2⟩
    [⟨1, "A", false⟩] "Z" [] ⟨⟨[⟨1, "A", false⟩], 2⟩, []⟩

/-! ## Claim C8: run-twice idempotence — exact phase forms -/

theorem add_fold_exact (l : List (Nat × String)) :
    ∀ st : RunSt, l.foldlM (fun st p =>
        (add_option false okStatus st p.2 (toString p.1)).map (·.1)) st
      = .ok ⟨⟨st.s.opts ++ added_records st.s.nextId l, st.s.nextId + l.length⟩,
          st.trace ++ l.map (fun p => RemoteCall.addOption p.2 (toString p.1))⟩ := by
  induction l with
  | nil =>
    intro st
    simp only [List.foldlM_nil, added_records, List.append_nil, List.map_nil,
      List.length_nil, Nat.add_zero]
    rfl
  | cons p rest ih =>
    intro st
    have hstep : (p :: rest).foldlM (fun st p =>
        (add_option false okStatus st p.2 (toString p.1)).map (·.1)) st
      = rest.foldlM (fun st p =>
          (add_option false okStatus st p.2 (toString p.1)).map (·.1))
          ⟨⟨st.s.opts ++ [⟨st.s.nextId, p.2, false⟩], st.s.nextId + 1⟩,
           st.trace ++ [RemoteCall.addOption p.2 (toString p.1)]⟩ := by
      rw [List.foldlM_cons]
      rfl
    rw [hstep, ih]
    refine congrArg Except.ok (congrArg₂ RunSt.mk (congrArg₂ RemoteState.mk ?_ ?_) ?_)
    · simp [added_records]
    · simp only [List.length_cons]
      omega
    · simp

theorem add_phase_exact (additions : List String) (st : RunSt) :
    add_phase false okStatus additions st
      = .ok ⟨⟨st.s.opts ++ added_records st.s.nextId additions.enum,
            st.s.nextId + additions.length⟩,
          st.trace ++ additions.enum.map
            (fun p => RemoteCall.addOption p.2 (toString p.1))⟩ := by
  have := add_fold_exact additions.enum st
  rwa [List.enum_length] at this

theorem added_records_values (nid : Nat) (l : List (Nat × String)) :
    (added_records nid l).map (fun o => o.value) = l.map (fun p => p.2) := by
  induction l generalizing nid with
  | nil => rfl
  | cons p rest ih => simp [added_records, ih]

theorem added_records_ids (nid : Nat) (l : List (Nat × String)) :
    (added_records nid l).map (fun o => o.optionId) = List.range' nid l.length := by
  induction l generalizing nid with
  | nil => rfl
  | cons p rest ih => simp [added_records, ih, List.range'_succ]

theorem added_records_flags (nid : Nat) (l : List (Nat × String)) :
    ∀ o ∈ added_records nid l, o.isDisabled = false := by
  induction l generalizing nid with
  | nil => intro o ho; simp [added_records] at ho
  | cons p rest ih =>
    intro o ho
    simp only [added_records, List.mem_cons] at ho
    rcases ho with rfl | ho
    · rfl
    · exact ih (nid + 1) o ho

/-- The scan only reads `value`, so changing flags (keeping ids and
values) never changes identifier resolution. -/
theorem find_option_id_flags (opts : List ROption) (f : ROption → Bool) (v : String) :
    find_option_id (opts.map (fun o => ⟨o.optionId, o.value, f o⟩)) v
      = find_option_id opts v := by
  simp only [find_option_id, List.find?_map, Option.map_map]
  rfl

theorem enabled_ids_flags (opts : List ROption) (f : ROption → Bool) (l : List String) :
    enabled_ids (opts.map (fun o => ⟨o.optionId, o.value, f o⟩)) l = enabled_ids opts l := by
  simp only [enabled_ids]
  exact List.filterMap_congr (fun v _ => find_option_id_flags opts f v)

theorem enable_calls_flags (opts : List ROption) (f : ROption → Bool) :
    ∀ l : List String,
      enable_calls (opts.map (fun o => ⟨o.optionId, o.value, f o⟩)) l = enable_calls opts l
  | [] => rfl
  | v :: vs => by
    simp only [enable_calls, find_option_id_flags, enable_calls_flags opts f vs]

/-- The one-id flag update, in value-preserving normal form. -/
theorem if_flag_norm (opts : List ROption) (i : Nat) :
    opts.map (fun o => if some o.optionId = some i
        then { o with isDisabled := !true } else o)
      = opts.map (fun o => ⟨o.optionId, o.value,
          if o.optionId = i then false else o.isDisabled⟩) := by
  refine List.map_congr_left ?_
  intro o _
  by_cases h : o.optionId = i <;> simp [h]

theorem map_none_noop (opts : List ROption) :
    opts.map (fun o => if some o.optionId = (none : Option Nat)
        then { o with isDisabled := !true } else o) = opts := by
  have : ∀ o ∈ opts, (if some o.optionId = (none : Option Nat)
      then { o with isDisabled := !true } else o) = o := by
    intro o _
    simp
  rw [List.map_congr_left this, List.map_id']

theorem map_enable_comp (opts : List ROption) (i : Nat) (ids : List Nat) :
    (opts.map (fun o => if some o.optionId = some i
        then { o with isDisabled := !true } else o)).map
        (fun o => if o.optionId ∈ ids then ⟨o.optionId, o.value, false⟩ else o)
      = opts.map (fun o => if o.optionId ∈ i :: ids
          then ⟨o.optionId, o.value, false⟩ else o) := by
  rw [List.map_map]
  refine List.map_congr_left ?_
  intro o _
  by_cases h1 : o.optionId = i <;> by_cases h2 : o.optionId ∈ ids <;>
    simp [Function.comp, h1, h2]

/-- Exact effect of the enable loop (healthy remote, non-dry): per value
one fresh listing plus one `updateEnabled(…, true)` addressed at the
value's first match in the phase-entry snapshot, and the state flips
exactly the addressed records to enabled. -/
theorem enable_phase_exact (L : List String) :
    ∀ st : RunSt, enable_phase false okStatus L st
      = .ok ⟨⟨st.s.opts.map (fun o => if o.optionId ∈ enabled_ids st.s.opts L
            then ⟨o.optionId, o.value, false⟩ else o), st.s.nextId⟩,
          st.trace ++ enable_calls st.s.opts L⟩ := by
  induction L with
  | nil =>
    intro st
    simp only [enable_phase, List.foldlM_nil, enabled_ids, List.filterMap_nil,
      List.not_mem_nil, if_false, List.map_id', enable_calls, List.append_nil]
    rfl
  | cons v vs ih =>
    intro st
    have hgid : get_option_id okStatus st v
        = .ok (⟨st.s, st.trace ++ [RemoteCall.listOptions]⟩,
            find_option_id st.s.opts v) := get_option_id_ok okStatus st v rfl
    have hstep : enable_phase false okStatus (v :: vs) st
        = enable_phase false okStatus vs
            ⟨applyUpdateEnabled st.s (find_option_id st.s.opts v) true,
             (st.trace ++ [RemoteCall.listOptions])
               ++ [RemoteCall.updateEnabled (find_option_id st.s.opts v) true]⟩ := by
      simp only [enable_phase, List.foldlM_cons, hgid]
      rfl
    rw [hstep, ih]
    cases hf : find_option_id st.s.opts v with
    | none =>
      have ha : (applyUpdateEnabled st.s (none : Option Nat) true).opts = st.s.opts :=
        map_none_noop st.s.opts
      have hl : enabled_ids st.s.opts (v :: vs) = enabled_ids st.s.opts vs := by
        simp [enabled_ids, hf]
      refine congrArg Except.ok (congrArg₂ RunSt.mk (congrArg₂ RemoteState.mk ?_ rfl) ?_)
      · rw [ha, hl]
      · rw [ha]
        simp [enable_calls, hf, List.append_assoc]
    | some i =>
      have ha : (applyUpdateEnabled st.s (some i) true).opts
          = st.s.opts.map (fun o => if some o.optionId = some i
              then { o with isDisabled := !true } else o) := rfl
      have hl : enabled_ids st.s.opts (v :: vs) = i :: enabled_ids st.s.opts vs := by
        simp [enabled_ids, hf]
      refine congrArg Except.ok (congrArg₂ RunSt.mk (congrArg₂ RemoteState.mk ?_ rfl) ?_)
      · rw [ha,
          show enabled_ids (st.s.opts.map (fun o => if some o.optionId = some i
              then { o with isDisabled := !true } else o)) vs = enabled_ids st.s.opts vs from by
            rw [if_flag_norm, enabled_ids_flags],
          map_enable_comp, hl]
      · simp only [enable_calls, hf, List.append_assoc]
        rw [show enable_calls (applyUpdateEnabled st.s (some i) true).opts vs
            = enable_calls st.s.opts vs from by rw [ha, if_flag_norm, enable_calls_flags]]
        simp

/-- One full healthy non-dry run in closed form. -/
theorem main_run_exact (static_opts input_lines : List String) (s0 : RemoteState)
    (option_list : List String)
    (hread : read_input static_opts input_lines = some option_list) :
    main_run false static_opts input_lines okStatus s0
      = .ok ⟨run_final s0 static_opts option_list,
          [RemoteCall.listOptions]
          ++ (selected_ids s0.opts (plan (s0.opts.map (fun o => o.value)) option_list).1).map
              (fun i => RemoteCall.updateEnabled (some i) false)
          ++ (plan (s0.opts.map (fun o => o.value)) option_list).2.enum.map
              (fun p => RemoteCall.addOption p.2 (toString p.1))
          ++ enable_calls (disabled_opts s0.opts
                (plan (s0.opts.map (fun o => o.value)) option_list).1
              ++ added_records s0.nextId
                (plan (s0.opts.map (fun o => o.value)) option_list).2.enum) option_list
          ++ [RemoteCall.listOptions]
          ++ List.replicate static_opts.length RemoteCall.listOptions
          ++ [RemoteCall.movePositions
              (reorder_positions static_opts (after_apply s0 option_list).opts)]⟩ := by
  have hgo : ∀ stx : RunSt, get_options okStatus stx
      = .ok (⟨stx.s, stx.trace ++ [RemoteCall.listOptions]⟩, stx.s.opts) :=
    fun stx => get_options_ok okStatus stx rfl
  have hstat : ∀ (mp : Nat) (stx : RunSt) (mx : List (Option Nat × String)),
      static_positions_phase okStatus static_opts mp (stx, mx)
        = .ok (⟨stx.s, stx.trace ++ List.replicate static_opts.length RemoteCall.listOptions⟩,
            static_opts.enum.foldl (fun m q =>
              dictInsert m (find_option_id stx.s.opts q.2) (toString (mp + q.1 + 1))) mx) :=
    fun mp stx mx => static_positions_phase_exact okStatus static_opts mp stx mx (fun _ => rfl)
  have hmv : ∀ (stx : RunSt) (mx : List (Option Nat × String)),
      move_option false okStatus stx mx
        = .ok (⟨applyMove stx.s mx, stx.trace ++ [RemoteCall.movePositions mx]⟩,
            some (applyMove stx.s mx).opts) := fun stx mx => rfl
  simp only [main_run, hgo, ok_bind, hread, disable_phase_ok, add_phase_exact,
    enable_phase_exact, hstat, hmv]
  refine congrArg Except.ok (congrArg₂ RunSt.mk ?_ ?_)
  · rfl
  · simp only [disabled_opts, after_apply, enabled_opts, reorder_positions,
      nonstatic_positions, List.append_assoc, List.singleton_append, List.cons_append,
      List.nil_append]

theorem read_input_some {static_opts input_lines L : List String}
    (h : read_input static_opts input_lines = some L) :
    L = static_opts ++ (input_lines.map strip).filter (fun l => decide (l ≠ "")) := by
  simp only [read_input] at h
  split at h
  · exact absurd h (by simp)
  · exact (Option.some_inj.1 h).symm

theorem val_inj_of_nodup {snap : List ROption} (h : (snap.map (fun o => o.value)).Nodup)
    {a b : ROption} (ha : a ∈ snap) (hb : b ∈ snap) (hv : a.value = b.value) : a = b :=
  List.inj_on_of_nodup_map h ha hb hv

theorem plan_mem₁ (c d : List String) (x : String) :
    x ∈ (plan c d).1 ↔ x ∈ c ∧ x ∉ d := by
  simp only [plan]
  rw [(List.perm_insertionSort strLe _).mem_iff]
  simp [List.mem_filter, List.mem_dedup]

theorem plan_mem₂ (c d : List String) (x : String) :
    x ∈ (plan c d).2 ↔ x ∈ d ∧ x ∉ c := by
  simp only [plan]
  rw [(List.perm_insertionSort strLe _).mem_iff]
  simp [List.mem_filter, List.mem_dedup]

theorem plan_nodup₁ (c d : List String) : (plan c d).1.Nodup :=
  ((List.perm_insertionSort _ _).nodup_iff).2 ((List.nodup_dedup c).filter _)

theorem plan_nodup₂ (c d : List String) : (plan c d).2.Nodup :=
  ((List.perm_insertionSort _ _).nodup_iff).2 ((List.nodup_dedup d).filter _)

theorem plan_sorted₁ (c d : List String) : List.Sorted strLe (plan c d).1 :=
  List.sorted_insertionSort _ _

theorem plan_sorted₂ (c d : List String) : List.Sorted strLe (plan c d).2 :=
  List.sorted_insertionSort _ _

theorem disabled_opts_ids (opts : List ROption) (M : List String) :
    (disabled_opts opts M).map (fun o => o.optionId) = opts.map (fun o => o.optionId) := by
  simp only [disabled_opts, List.map_map]
  refine List.map_congr_left ?_
  intro o _
  by_cases h : o.optionId ∈ selected_ids opts M <;> simp [Function.comp, h]

theorem disabled_opts_values (opts : List ROption) (M : List String) :
    (disabled_opts opts M).map (fun o => o.value) = opts.map (fun o => o.value) := by
  simp only [disabled_opts, List.map_map]
  refine List.map_congr_left ?_
  intro o _
  by_cases h : o.optionId ∈ selected_ids opts M <;> simp [Function.comp, h]

theorem enabled_opts_ids (opts : List ROption) (L : List String) :
    (enabled_opts opts L).map (fun o => o.optionId) = opts.map (fun o => o.optionId) := by
  simp only [enabled_opts, List.map_map]
  refine List.map_congr_left ?_
  intro o _
  by_cases h : o.optionId ∈ enabled_ids opts L <;> simp [Function.comp, h]

theorem enabled_opts_values (opts : List ROption) (L : List String) :
    (enabled_opts opts L).map (fun o => o.value) = opts.map (fun o => o.value) := by
  simp only [enabled_opts, List.map_map]
  refine List.map_congr_left ?_
  intro o _
  by_cases h : o.optionId ∈ enabled_ids opts L <;> simp [Function.comp, h]

theorem after_apply_ids (s0 : RemoteState) (L : List String) :
    (after_apply s0 L).opts.map (fun o => o.optionId)
      = s0.opts.map (fun o => o.optionId)
        ++ List.range' s0.nextId (plan (s0.opts.map (fun o => o.value)) L).2.length := by
  show (enabled_opts _ _).map _ = _
  rw [enabled_opts_ids, List.map_append, disabled_opts_ids, added_records_ids,
    List.enum_length]

theorem after_apply_values (s0 : RemoteState) (L : List String) :
    (after_apply s0 L).opts.map (fun o => o.value)
      = s0.opts.map (fun o => o.value) ++ (plan (s0.opts.map (fun o => o.value)) L).2 := by
  show (enabled_opts _ _).map _ = _
  rw [enabled_opts_values, List.map_append, disabled_opts_values, added_records_values,
    List.enum_map_snd]

theorem after_apply_ids_nodup (s0 : RemoteState) (L : List String)
    (H1 : (s0.opts.map (fun o => o.optionId)).Nodup)
    (H2 : ∀ o ∈ s0.opts, o.optionId < s0.nextId) :
    ((after_apply s0 L).opts.map (fun o => o.optionId)).Nodup := by
  rw [after_apply_ids, List.nodup_append]
  refine ⟨H1, List.nodup_range' _ _, ?_⟩
  intro i hi hir
  rw [List.mem_range'] at hir
  obtain ⟨k, _, rfl⟩ := hir
  obtain ⟨o, ho, hoid⟩ := List.mem_map.1 hi
  have := H2 o ho
  omega

theorem after_apply_values_nodup (s0 : RemoteState) (L : List String)
    (H3 : (s0.opts.map (fun o => o.value)).Nodup) :
    ((after_apply s0 L).opts.map (fun o => o.value)).Nodup := by
  rw [after_apply_values, List.nodup_append]
  refine ⟨H3, plan_nodup₂ _ _, ?_⟩
  intro v hv hva
  rw [plan_mem₂] at hva
  exact hva.2 hv

theorem mem_selected_ids_iff {opts : List ROption} {M : List String}
    (hids : (opts.map (fun o => o.optionId)).Nodup)
    (hvals : (opts.map (fun o => o.value)).Nodup)
    {o : ROption} (ho : o ∈ opts) :
    o.optionId ∈ selected_ids opts M ↔ o.value ∈ M := by
  constructor
  · intro h
    rw [selected_ids, List.mem_filterMap] at h
    obtain ⟨v, hv, hfind⟩ := h
    rw [Option.map_eq_some'] at hfind
    obtain ⟨o', hf', hid⟩ := hfind
    obtain ⟨ho', hval'⟩ := find_option_id_spec hf'
    have heq : o' = o := id_inj_of_nodup hids ho' ho hid
    subst heq
    exact hval' ▸ hv
  · intro h
    have hex : ∃ x ∈ opts, x.value = o.value := ⟨o, ho, rfl⟩
    obtain ⟨o', ho', hov, hfind⟩ := find_option_id_exists hex
    have heq : o' = o := val_inj_of_nodup hvals ho' ho hov
    rw [heq] at hfind
    rw [selected_ids, List.mem_filterMap]
    refine ⟨o.value, h, ?_⟩
    rw [find_option_id] at hfind
    exact hfind

theorem mem_enabled_ids_iff {opts : List ROption} {L : List String}
    (hids : (opts.map (fun o => o.optionId)).Nodup)
    (hvals : (opts.map (fun o => o.value)).Nodup)
    {o : ROption} (ho : o ∈ opts) :
    o.optionId ∈ enabled_ids opts L ↔ o.value ∈ L := by
  constructor
  · intro h
    rw [enabled_ids, List.mem_filterMap] at h
    obtain ⟨v, hv, hfind⟩ := h
    obtain ⟨o', ho', hval', hid⟩ := find_option_id_some_inv hfind
    have heq : o' = o := id_inj_of_nodup hids ho' ho hid
    subst heq
    exact hval' ▸ hv
  · intro h
    have hex : ∃ x ∈ opts, x.value = o.value := ⟨o, ho, rfl⟩
    obtain ⟨o', ho', hov, hfind⟩ := find_option_id_exists hex
    have heq : o' = o := val_inj_of_nodup hvals ho' ho hov
    rw [heq] at hfind
    rw [enabled_ids, List.mem_filterMap]
    exact ⟨o.value, h, hfind⟩

theorem Oa_ids_nodup (s0 : RemoteState) (L : List String)
    (H1 : (s0.opts.map (fun o => o.optionId)).Nodup)
    (H2 : ∀ o ∈ s0.opts, o.optionId < s0.nextId) :
    ((disabled_opts s0.opts (plan (s0.opts.map (fun o => o.value)) L).1
        ++ added_records s0.nextId (plan (s0.opts.map (fun o => o.value)) L).2.enum).map
      (fun o => o.optionId)).Nodup := by
  have h := after_apply_ids_nodup s0 L H1 H2
  rwa [show (after_apply s0 L).opts
      = enabled_opts (disabled_opts s0.opts (plan (s0.opts.map (fun o => o.value)) L).1
          ++ added_records s0.nextId (plan (s0.opts.map (fun o => o.value)) L).2.enum) L
    from rfl, enabled_opts_ids] at h

theorem Oa_values_nodup (s0 : RemoteState) (L : List String)
    (H3 : (s0.opts.map (fun o => o.value)).Nodup) :
    ((disabled_opts s0.opts (plan (s0.opts.map (fun o => o.value)) L).1
        ++ added_records s0.nextId (plan (s0.opts.map (fun o => o.value)) L).2.enum).map
      (fun o => o.value)).Nodup := by
  have h := after_apply_values_nodup s0 L H3
  rwa [show (after_apply s0 L).opts
      = enabled_opts (disabled_opts s0.opts (plan (s0.opts.map (fun o => o.value)) L).1
          ++ added_records s0.nextId (plan (s0.opts.map (fun o => o.value)) L).2.enum) L
    from rfl, enabled_opts_values] at h

/-- After one healthy run's apply phases, a record is disabled exactly
when its value is not in the merged desired list. -/
theorem after_apply_flags (s0 : RemoteState) (L : List String)
    (H1 : (s0.opts.map (fun o => o.optionId)).Nodup)
    (H2 : ∀ o ∈ s0.opts, o.optionId < s0.nextId)
    (H3 : (s0.opts.map (fun o => o.value)).Nodup) :
    ∀ o ∈ (after_apply s0 L).opts, o.isDisabled = decide (o.value ∉ L) := by
  intro o ho
  have hOai := Oa_ids_nodup s0 L H1 H2
  have hOav := Oa_values_nodup s0 L H3
  rw [show (after_apply s0 L).opts
      = enabled_opts (disabled_opts s0.opts (plan (s0.opts.map (fun o => o.value)) L).1
          ++ added_records s0.nextId (plan (s0.opts.map (fun o => o.value)) L).2.enum) L
    from rfl, enabled_opts, List.mem_map] at ho
  obtain ⟨b, hb, rfl⟩ := ho
  have hiff := mem_enabled_ids_iff (L := L) hOai hOav hb
  by_cases hL : b.value ∈ L
  · rw [if_pos (hiff.2 hL)]
    simp [hL]
  · rw [if_neg (fun hmem => hL (hiff.1 hmem))]
    rcases List.mem_append.1 hb with hbd | hba
    · rw [disabled_opts, List.mem_map] at hbd
      obtain ⟨a, ha, rfl⟩ := hbd
      have hselIff := mem_selected_ids_iff
        (M := (plan (s0.opts.map (fun o => o.value)) L).1) H1 H3 ha
      by_cases hsel : a.optionId ∈ selected_ids s0.opts
          (plan (s0.opts.map (fun o => o.value)) L).1
      · rw [if_pos hsel] at hL ⊢
        simp [hL]
      · exfalso
        apply hsel
        rw [if_neg hsel] at hL
        refine hselIff.2 ?_
        rw [plan_mem₁]
        exact ⟨List.mem_map_of_mem _ ha, hL⟩
    · exfalso
      apply hL
      have hv : b.value ∈ (added_records s0.nextId
          (plan (s0.opts.map (fun o => o.value)) L).2.enum).map (fun o => o.value) :=
        List.mem_map_of_mem _ hba
      rw [added_records_values, List.enum_map_snd] at hv
      exact (plan_mem₂ _ _ _ |>.1 hv).1

theorem perm_eq_of_map_eq {α β : Type} {f : α → β} :
    ∀ {l1 l2 : List α}, l1.Perm l2 → l1.map f = l2.map f → (l1.map f).Nodup → l1 = l2 := by
  intro l1
  induction l1 with
  | nil =>
    intro l2 hp _ _
    exact hp.symm.eq_nil.symm
  | cons a t ih =>
    intro l2 hp hm hn
    cases l2 with
    | nil => exact absurd hp.length_eq (by simp)
    | cons b t2 =>
      simp only [List.map_cons, List.cons.injEq] at hm
      have hab : a = b := by
        have hamem : a ∈ b :: t2 := hp.subset (List.mem_cons_self a t)
        rcases List.mem_cons.1 hamem with h | h
        · exact h
        · exfalso
          have hfa : f a ∈ t2.map f := List.mem_map_of_mem f h
          rw [hm.1] at hfa
          have hn2 : ((b :: t2).map f).Nodup := by
            rw [List.map_cons, ← hm.1, ← hm.2, ← List.map_cons]
            exact hn
          rw [List.map_cons, List.nodup_cons] at hn2
          exact hn2.1 hfa
      subst hab
      have hp' : t.Perm t2 := hp.cons_inv
      have hn' : (t.map f).Nodup := (List.nodup_cons.1 hn).2
      rw [ih hp' hm.2 hn']

theorem sorted_nonstatic_perm (static_opts : List String) {snap1 snap2 : List ROption}
    (hperm : snap1.Perm snap2) (hvals : (snap1.map (fun o => o.value)).Nodup) :
    sorted_nonstatic static_opts snap1 = sorted_nonstatic static_opts snap2 := by
  have hp : (sorted_nonstatic static_opts snap1).Perm (sorted_nonstatic static_opts snap2) :=
    ((List.perm_insertionSort _ _).trans (hperm.filter _)).trans
      (List.perm_insertionSort _ _).symm
  have hs1 : (sorted_nonstatic static_opts snap1).Sorted
      (fun a b : ROption => strLe a.value b.value) := List.sorted_insertionSort _ _
  have hs2 : (sorted_nonstatic static_opts snap2).Sorted
      (fun a b : ROption => strLe a.value b.value) := List.sorted_insertionSort _ _
  have hm1 : ((sorted_nonstatic static_opts snap1).map (fun o => o.value)).Sorted strLe :=
    List.Pairwise.map (fun o : ROption => o.value) (fun _ _ h => h) hs1
  have hm2 : ((sorted_nonstatic static_opts snap2).map (fun o => o.value)).Sorted strLe :=
    List.Pairwise.map (fun o : ROption => o.value) (fun _ _ h => h) hs2
  have hmeq : (sorted_nonstatic static_opts snap1).map (fun o => o.value)
      = (sorted_nonstatic static_opts snap2).map (fun o => o.value) :=
    List.eq_of_perm_of_sorted (hp.map _) hm1 hm2
  have hnd : ((sorted_nonstatic static_opts snap1).map (fun o => o.value)).Nodup := by
    have hsub : ((snap1.filter (fun o => decide (o.value ∉ static_opts))).map
        (fun o => o.value)).Sublist (snap1.map (fun o => o.value)) :=
      List.Sublist.map _ (List.filter_sublist snap1)
    exact ((List.perm_insertionSort (fun a b : ROption => strLe a.value b.value)
      (snap1.filter (fun o : ROption => decide (o.value ∉ static_opts)))).map
        (fun o : ROption => o.value)).nodup_iff.2 (hvals.sublist hsub)
  exact perm_eq_of_map_eq hp hmeq hnd

theorem find_option_id_perm {snap1 snap2 : List ROption} (hperm : snap1.Perm snap2)
    (hvals : (snap1.map (fun o => o.value)).Nodup) {v : String}
    (hv : ∃ o ∈ snap1, o.value = v) :
    find_option_id snap1 v = find_option_id snap2 v := by
  obtain ⟨o1, ho1, hov1, hf1⟩ := find_option_id_exists hv
  have hv2 : ∃ o ∈ snap2, o.value = v := by
    obtain ⟨o, ho, hov⟩ := hv
    exact ⟨o, hperm.mem_iff.1 ho, hov⟩
  obtain ⟨o2, ho2, hov2, hf2⟩ := find_option_id_exists hv2
  have ho2' : o2 ∈ snap1 := hperm.mem_iff.2 ho2
  have heq : o1 = o2 := val_inj_of_nodup hvals ho1 ho2' (hov1.trans hov2.symm)
  rw [hf1, hf2, heq]

theorem reorder_positions_perm_eq (static_opts : List String) {snap1 snap2 : List ROption}
    (hperm : snap1.Perm snap2)
    (hids : (snap1.map (fun o => o.optionId)).Nodup)
    (hvals : (snap1.map (fun o => o.value)).Nodup)
    (hmem : ∀ v ∈ static_opts, ∃ o ∈ snap1, o.value = v)
    (hsnodup : static_opts.Nodup) :
    reorder_positions static_opts snap1 = reorder_positions static_opts snap2 := by
  have hids2 : (snap2.map (fun o => o.optionId)).Nodup :=
    ((hperm.map (fun o : ROption => o.optionId)).nodup_iff).1 hids
  have hmem2 : ∀ v ∈ static_opts, ∃ o ∈ snap2, o.value = v := by
    intro v hv
    obtain ⟨o, ho, hov⟩ := hmem v hv
    exact ⟨o, hperm.mem_iff.1 ho, hov⟩
  have hs : sorted_nonstatic static_opts snap1 = sorted_nonstatic static_opts snap2 :=
    sorted_nonstatic_perm static_opts hperm hvals
  rw [reorder_positions_eq static_opts snap1 hids hmem hsnodup,
    reorder_positions_eq static_opts snap2 hids2 hmem2 hsnodup, hs]
  congr 1
  refine List.map_congr_left ?_
  intro p hp
  have hpmem : p.2 ∈ static_opts := by
    have : p.2 ∈ static_opts.enum.map (fun q : Nat × String => q.2) :=
      List.mem_map_of_mem _ hp
    rwa [List.enum_map_snd] at this
  rw [find_option_id_perm hperm hvals (hmem p.2 hpmem)]

theorem plan_snd_nil {c d : List String} (h : ∀ v ∈ d, v ∈ c) : (plan c d).2 = [] := by
  have hf : d.dedup.filter (fun x => decide (x ∉ c)) = [] := by
    rw [List.filter_eq_nil_iff]
    intro a ha
    simp only [decide_eq_true_eq, not_not]
    exact h a (List.mem_dedup.1 ha)
  simp only [plan, hf]
  rfl

theorem disabled_opts_noop {opts : List ROption} {M : List String}
    (hids : (opts.map (fun o => o.optionId)).Nodup)
    (hvals : (opts.map (fun o => o.value)).Nodup)
    (hflag : ∀ o ∈ opts, o.value ∈ M → o.isDisabled = true) :
    disabled_opts opts M = opts := by
  rw [disabled_opts]
  have hcongr : ∀ o ∈ opts,
      (if o.optionId ∈ selected_ids opts M
        then (⟨o.optionId, o.value, true⟩ : ROption) else o) = id o := by
    intro o ho
    by_cases h : o.optionId ∈ selected_ids opts M
    · rw [if_pos h]
      have hd := hflag o ho ((mem_selected_ids_iff hids hvals ho).1 h)
      exact congrArg (fun b => (⟨o.optionId, o.value, b⟩ : ROption)) hd.symm
    · rw [if_neg h]
      rfl
  rw [List.map_congr_left hcongr, List.map_id]

theorem enabled_opts_noop {opts : List ROption} {L : List String}
    (hids : (opts.map (fun o => o.optionId)).Nodup)
    (hvals : (opts.map (fun o => o.value)).Nodup)
    (hflag : ∀ o ∈ opts, o.value ∈ L → o.isDisabled = false) :
    enabled_opts opts L = opts := by
  rw [enabled_opts]
  have hcongr : ∀ o ∈ opts,
      (if o.optionId ∈ enabled_ids opts L
        then (⟨o.optionId, o.value, false⟩ : ROption) else o) = id o := by
    intro o ho
    by_cases h : o.optionId ∈ enabled_ids opts L
    · rw [if_pos h]
      have hd := hflag o ho ((mem_enabled_ids_iff hids hvals ho).1 h)
      exact congrArg (fun b => (⟨o.optionId, o.value, b⟩ : ROption)) hd.symm
    · rw [if_neg h]
      rfl
  rw [List.map_congr_left hcongr, List.map_id]

/-- A state whose flags already agree with the merged desired list and
whose records cover it is left unchanged by the three apply phases. -/
theorem after_apply_fixed (T : RemoteState) (L : List String)
    (hids : (T.opts.map (fun o => o.optionId)).Nodup)
    (hvals : (T.opts.map (fun o => o.value)).Nodup)
    (hflags : ∀ o ∈ T.opts, o.isDisabled = decide (o.value ∉ L))
    (hcover : ∀ v ∈ L, ∃ o ∈ T.opts, o.value = v) :
    after_apply T L = T := by
  have hnil : (plan (T.opts.map (fun o => o.value)) L).2 = [] := by
    apply plan_snd_nil
    intro v hv
    obtain ⟨o, ho, rfl⟩ := hcover v hv
    exact List.mem_map_of_mem _ ho
  have hdis : disabled_opts T.opts (plan (T.opts.map (fun o => o.value)) L).1 = T.opts := by
    apply disabled_opts_noop hids hvals
    intro o ho hM
    have hM' := (plan_mem₁ _ _ _).1 hM
    rw [hflags o ho]
    simp [hM'.2]
  have hen : enabled_opts T.opts L = T.opts := by
    apply enabled_opts_noop hids hvals
    intro o ho hL
    rw [hflags o ho]
    simp [hL]
  rw [after_apply, hnil]
  simp only [List.enum_nil, added_records, List.append_nil, List.length_nil, Nat.add_zero]
  rw [hdis, hen]

theorem after_apply_cover (s0 : RemoteState) (L : List String) :
    ∀ v ∈ L, ∃ o ∈ (after_apply s0 L).opts, o.value = v := by
  intro v hv
  have hmem : v ∈ (after_apply s0 L).opts.map (fun o => o.value) := by
    rw [after_apply_values, List.mem_append]
    by_cases h : v ∈ s0.opts.map (fun o => o.value)
    · exact .inl h
    · exact .inr ((plan_mem₂ _ _ _).2 ⟨hv, h⟩)
  obtain ⟨o, ho, hov⟩ := List.mem_map.1 hmem
  exact ⟨o, ho, hov⟩

theorem applyMove_perm (s : RemoteState) (m : List (Option Nat × String)) :
    (applyMove s m).opts.Perm s.opts := by
  show (((s.opts.filter (fun o => m.any (fun p => decide (p.1 = some o.optionId)))).insertionSort
      (fun a b => posOf m a ≤ posOf m b))
    ++ s.opts.filter
        (fun o => !(m.any (fun p => decide (p.1 = some o.optionId))))).Perm s.opts
  exact ((List.perm_insertionSort _ _).append_right _).trans
    (List.filter_append_perm _ s.opts)

theorem applyMove_idem (s : RemoteState) (m : List (Option Nat × String)) :
    applyMove (applyMove s m) m = applyMove s m := by
  haveI hT : IsTotal ROption (fun a b => posOf m a ≤ posOf m b) :=
    ⟨fun a b => Nat.le_total _ _⟩
  haveI hR : IsTrans ROption (fun a b => posOf m a ≤ posOf m b) :=
    ⟨fun _ _ _ => Nat.le_trans⟩
  have hfself : ∀ a ∈ (s.opts.filter
        (fun o => m.any (fun p => decide (p.1 = some o.optionId)))).insertionSort
      (fun a b => posOf m a ≤ posOf m b),
      m.any (fun p => decide (p.1 = some a.optionId)) = true := by
    intro a ha
    have hperm := List.perm_insertionSort (fun a b : ROption => posOf m a ≤ posOf m b)
      (s.opts.filter (fun o => m.any (fun p => decide (p.1 = some o.optionId))))
    have hmf := List.of_mem_filter (hperm.mem_iff.1 ha)
    exact hmf
  have h1 : ((applyMove s m).opts.filter
        (fun o => m.any (fun p => decide (p.1 = some o.optionId))))
      = (s.opts.filter (fun o => m.any (fun p => decide (p.1 = some o.optionId)))).insertionSort
          (fun a b => posOf m a ≤ posOf m b) := by
    show (((s.opts.filter (fun o => m.any (fun p => decide (p.1 = some o.optionId)))).insertionSort
          (fun a b => posOf m a ≤ posOf m b)
        ++ s.opts.filter (fun o => !(m.any (fun p => decide (p.1 = some o.optionId))))).filter
          (fun o => m.any (fun p => decide (p.1 = some o.optionId))))
      = _
    rw [List.filter_append, List.filter_eq_self.2 hfself,
      show (s.opts.filter
            (fun o => !(m.any (fun p => decide (p.1 = some o.optionId))))).filter
          (fun o => m.any (fun p => decide (p.1 = some o.optionId))) = [] from
        List.filter_eq_nil_iff.2 (fun a ha => by
          have := List.of_mem_filter ha
          simp only [Bool.not_eq_true'] at this
          simp [this]),
      List.append_nil]
  have h2 : ((applyMove s m).opts.filter
        (fun o => !(m.any (fun p => decide (p.1 = some o.optionId)))))
      = s.opts.filter (fun o => !(m.any (fun p => decide (p.1 = some o.optionId)))) := by
    show (((s.opts.filter (fun o => m.any (fun p => decide (p.1 = some o.optionId)))).insertionSort
          (fun a b => posOf m a ≤ posOf m b)
        ++ s.opts.filter (fun o => !(m.any (fun p => decide (p.1 = some o.optionId))))).filter
          (fun o => !(m.any (fun p => decide (p.1 = some o.optionId)))))
      = _
    rw [List.filter_append,
      show ((s.opts.filter
            (fun o => m.any (fun p => decide (p.1 = some o.optionId)))).insertionSort
          (fun a b => posOf m a ≤ posOf m b)).filter
          (fun o => !(m.any (fun p => decide (p.1 = some o.optionId)))) = [] from
        List.filter_eq_nil_iff.2 (fun a ha => by simp [hfself a ha]),
      List.nil_append]
    refine List.filter_eq_self.2 ?_
    intro a ha
    have hmf := List.of_mem_filter ha
    exact hmf
  show (⟨_ ++ _, _⟩ : RemoteState) = _
  rw [h1, h2]
  refine congrArg₂ RemoteState.mk (congrArg₂ (· ++ ·) ?_ rfl) rfl
  exact (List.sorted_insertionSort _ _).insertionSort_eq

/-- C8: counterexample to the literal claim.  From the steady state reached
by one sync (current `{A(disabled), B, C, Other}`, desired file `[B, C]`,
static tail `[Other]`), a second identical run leaves the remote state
unchanged but issues five mutating calls, not just the reorder: it
re-disables the already-disabled historical record `A` and re-enables every
merged desired value before pushing the (unchanged) position mapping. -/
theorem C8_counterexample :
    ∃ st1 st2 : RunSt,
      main_run false ["Other"] ["B", "C"] okStatus
          ⟨[⟨1, "A", false⟩, ⟨2, "B", false⟩, ⟨3, "Other", false⟩], 4⟩ = .ok st1
      ∧ main_run false ["Other"] ["B", "C"] okStatus st1.s = .ok st2
      ∧ st2.s = st1.s
      ∧ RemoteCall.updateEnabled (some 1) false ∈ st2.trace
      ∧ (RemoteCall.updateEnabled (some 1) false).mutating = true
      ∧ st2.trace.countP (fun c : RemoteCall => c.mutating) = 5 := by
  refine ⟨_, _, rfl, rfl, rfl, ?_, rfl, ?_⟩ <;> decide

/-- C8 (amended): running the sync twice with the same desired list and no
intervening external change produces no net remote mutation on the second
run — the second run ends in exactly the state the first run produced — and
its final reorder call carries the identical position mapping as the first
run's.  (The second run does re-issue individually state-preserving
disable/enable calls, which is what the counterexample exhibits.)
Hypotheses: distinct record ids below the id counter, distinct record
values, duplicate-free static tail. -/
theorem C8_amended (static_opts input_lines : List String) (s0 : RemoteState)
    (option_list : List String)
    (hread : read_input static_opts input_lines = some option_list)
    (H1 : (s0.opts.map (fun o => o.optionId)).Nodup)
    (H2 : ∀ o ∈ s0.opts, o.optionId < s0.nextId)
    (H3 : (s0.opts.map (fun o => o.value)).Nodup)
    (H4 : static_opts.Nodup) :
    ∃ T1 T2 : List RemoteCall,
      main_run false static_opts input_lines okStatus s0
        = .ok ⟨run_final s0 static_opts option_list, T1⟩
      ∧ main_run false static_opts input_lines okStatus
            (run_final s0 static_opts option_list)
        = .ok ⟨run_final s0 static_opts option_list, T2⟩
      ∧ T1.getLast? = some (RemoteCall.movePositions
          (reorder_positions static_opts (after_apply s0 option_list).opts))
      ∧ T2.getLast? = some (RemoteCall.movePositions
          (reorder_positions static_opts (after_apply s0 option_list).opts)) := by
  have h1 := main_run_exact static_opts input_lines s0 option_list hread
  have h2 := main_run_exact static_opts input_lines
    (run_final s0 static_opts option_list) option_list hread
  have hperm : (run_final s0 static_opts option_list).opts.Perm
      (after_apply s0 option_list).opts :=
    applyMove_perm (after_apply s0 option_list)
      (reorder_positions static_opts (after_apply s0 option_list).opts)
  have hPids := after_apply_ids_nodup s0 option_list H1 H2
  have hPvals := after_apply_values_nodup s0 option_list H3
  have hS1ids : ((run_final s0 static_opts option_list).opts.map
      (fun o => o.optionId)).Nodup :=
    ((hperm.map (fun o : ROption => o.optionId)).nodup_iff).2 hPids
  have hS1vals : ((run_final s0 static_opts option_list).opts.map
      (fun o => o.value)).Nodup :=
    ((hperm.map (fun o : ROption => o.value)).nodup_iff).2 hPvals
  have hPflags := after_apply_flags s0 option_list H1 H2 H3
  have hS1flags : ∀ o ∈ (run_final s0 static_opts option_list).opts,
      o.isDisabled = decide (o.value ∉ option_list) :=
    fun o ho => hPflags o (hperm.subset ho)
  have hS1cover : ∀ v ∈ option_list,
      ∃ o ∈ (run_final s0 static_opts option_list).opts, o.value = v := by
    intro v hv
    obtain ⟨o, ho, hov⟩ := after_apply_cover s0 option_list v hv
    exact ⟨o, hperm.mem_iff.2 ho, hov⟩
  have hfix : after_apply (run_final s0 static_opts option_list) option_list
      = run_final s0 static_opts option_list :=
    after_apply_fixed _ _ hS1ids hS1vals hS1flags hS1cover
  have hsmem : ∀ v ∈ static_opts, v ∈ option_list := by
    intro v hv
    rw [read_input_some hread]
    exact List.mem_append_left _ hv
  have hmapeq : reorder_positions static_opts (run_final s0 static_opts option_list).opts
      = reorder_positions static_opts (after_apply s0 option_list).opts :=
    reorder_positions_perm_eq static_opts hperm hS1ids hS1vals
      (fun v hv => hS1cover v (hsmem v hv)) H4
  have hrf : run_final (run_final s0 static_opts option_list) static_opts option_list
      = run_final s0 static_opts option_list := by
    show applyMove (after_apply (run_final s0 static_opts option_list) option_list)
        (reorder_positions static_opts
          (after_apply (run_final s0 static_opts option_list) option_list).opts)
      = run_final s0 static_opts option_list
    rw [hfix, hmapeq]
    exact applyMove_idem (after_apply s0 option_list)
      (reorder_positions static_opts (after_apply s0 option_list).opts)
  rw [hrf] at h2
  refine ⟨_, _, h1, h2, ?_, ?_⟩
  · rw [List.getLast?_concat]
  · rw [List.getLast?_concat, hfix, hmapeq]

theorem C8_amended_witness :
    ∃ T1 T2 : List RemoteCall,
      main_run false ["Other"] ["B", "C"] okStatus
          ⟨[⟨1, "A", false⟩, ⟨2, "B", false⟩, ⟨3, "Other", false⟩], 4⟩
        = .ok ⟨run_final ⟨[⟨1, "A", false⟩, ⟨2, "B", false⟩, ⟨3, "Other", false⟩], 4⟩
            ["Other"] ["Other", "B", "C"], T1⟩
      ∧ main_run false ["Other"] ["B", "C"] okStatus
            (run_final ⟨[⟨1, "A", false⟩, ⟨2, "B", false⟩, ⟨3, "Other", false⟩], 4⟩
              ["Other"] ["Other", "B", "C"])
        = .ok ⟨run_final ⟨[⟨1, "A", false⟩, ⟨2, "B", false⟩, ⟨3, "Other", false⟩], 4⟩
            ["Other"] ["Other", "B", "C"], T2⟩
      ∧ T1.getLast? = some (RemoteCall.movePositions
          (reorder_positions ["Other"]
            (after_apply ⟨[⟨1, "A", false⟩, ⟨2, "B", false⟩, ⟨3, "Other", false⟩], 4⟩
              ["Other", "B", "C"]).opts))
      ∧ T2.getLast? = some (RemoteCall.movePositions
          (reorder_positions ["Other"]
            (after_apply ⟨[⟨1, "A", false⟩, ⟨2, "B", false⟩, ⟨3, "Other", false⟩], 4⟩
              ["Other", "B", "C"]).opts)) :=
  C8_amended ["Other"] ["B", "C"]
    ⟨[⟨1, "A", false⟩, ⟨2, "B", false⟩, ⟨3, "Other", false⟩], 4⟩
    ["Other", "B", "C"] (by decide) (by decide) (by decide) (by decide) (by decide)
